import Mathlib

/-!
Verification development for `scripts/migrate_markdown.py`, a one-shot batch
tool converting markdown notes into Jekyll blog posts.  The Python source is
shallowly embedded here: text is `List Char` (ASCII-level model of Python
`str`), the regular expressions of the source are embedded as deterministic
scanners implementing the exact backtracking behaviour of the patterns used,
file contents are `List Nat` (bytes), and the filesystem, image store and
output directory are association lists threaded explicitly.
-/

set_option maxHeartbeats 1000000

set_option maxRecDepth 10000

/-- Text is modelled as a list of characters. -/
abbrev Str := List Char

/-- The apostrophe character (`'`). -/
def quoteChar : Char := Char.ofNat 39

/-- The backtick character. -/
def btChar : Char := Char.ofNat 96

/-- Python's `\s` character class, at the ASCII level: space, tab, newline,
carriage return, vertical tab, form feed. -/
def pyIsSpace (c : Char) : Bool :=
  c = ' ' || c = '\t' || c = '\n' || c = '\r' || c = Char.ofNat 11 || c = Char.ofNat 12

/-- ASCII lowercase conversion, modelling Python `str.lower` on ASCII text. -/
def pyLower (c : Char) : Char :=
  if 65 ≤ c.toNat ∧ c.toNat ≤ 90 then Char.ofNat (c.toNat + 32) else c

/-- ASCII letter test. -/
def pyIsAlpha (c : Char) : Bool :=
  (65 ≤ c.toNat && c.toNat ≤ 90) || (97 ≤ c.toNat && c.toNat ≤ 122)

/-- ASCII digit test. -/
def pyIsDigit (c : Char) : Bool :=
  48 ≤ c.toNat && c.toNat ≤ 57

/-- Python's `\w` character class at the ASCII level: letters, digits, `_`. -/
def pyIsWord (c : Char) : Bool :=
  pyIsAlpha c || pyIsDigit c || c = '_'

/-- Python `str.strip()`: remove leading and trailing whitespace. -/
def pyStrip (s : Str) : Str :=
  ((s.dropWhile pyIsSpace).reverse.dropWhile pyIsSpace).reverse

/-- Python `str.title()` at the ASCII level: a letter is uppercased when the
preceding character is not a letter, lowercased otherwise. -/
def pyTitleAux : Bool → Str → Str
  | _, [] => []
  | prevAlpha, c :: rest =>
    (if pyIsAlpha c then
      (if prevAlpha then pyLower c else Char.ofNat (if 97 ≤ c.toNat ∧ c.toNat ≤ 122 then c.toNat - 32 else c.toNat))
     else c) :: pyTitleAux (pyIsAlpha c) rest

/-- Python `str.title()` (ASCII model). -/
def pyTitle (s : Str) : Str := pyTitleAux false s

/-!
## Title extraction (`extract_title_from_content`, lines 44–58)

The source searches `content` for the multiline regex `^#\s+(.+)$`.  The
embedded scanner reproduces Python `re.search` semantics exactly: the match
starting at the leftmost line-start `#` wins; `\s+` is greedy and may span
newlines, backtracking until `(.+)` can match at least one non-newline
character; `(.+)$` then captures greedily up to the end of line.
-/

/-- Backtracking step for `\s+(.+)$` after a line-start `#`: `rest` is the text
after the `#`; try whitespace-run lengths `k, k-1, …, 1`, succeeding when the
character after the run exists and is not a newline; on success capture up to
the end of line. -/
def headingTryK (rest : Str) : Nat → Option Str
  | 0 => none
  | k + 1 =>
    match (rest.drop (k + 1)).head? with
    | some c => if c ≠ '\n' then some ((rest.drop (k + 1)).takeWhile (· ≠ '\n')) else headingTryK rest k
    | none => headingTryK rest k

/-- Attempt to match `\s+(.+)$` at the position just after a line-start `#`. -/
def headingTry (rest : Str) : Option Str :=
  headingTryK rest (rest.takeWhile pyIsSpace).length

/-- Scan for the leftmost match of `^#\s+(.+)$` (multiline); the Boolean flag
records whether the current position is at a line start. -/
def headingSearch : Bool → Str → Option Str
  | _, [] => none
  | atStart, c :: rest =>
    if atStart ∧ c = '#' then
      match headingTry rest with
      | some cap => some cap
      | none => headingSearch (c = '\n') rest
    else headingSearch (c = '\n') rest

/-- `MarkdownMigrator.extract_title_from_content` (lines 44–58): first heading
via the regex; otherwise, when the input path is a single file, the title-cased
stem with `_`/`-` replaced by spaces; otherwise the literal fallback. -/
def extract_title_from_content (content : Str) (inputIsFile : Bool) (inputStem : Str) : Str :=
  match headingSearch true content with
  | some cap => pyStrip cap
  | none =>
    if inputIsFile then
      pyTitle (inputStem.map (fun c => if c = '_' ∨ c = '-' then ' ' else c))
    else "Untitled Post".data

/-!
## Slug derivation (`generate_jekyll_front_matter`, lines 168–169)

`re.sub(r'[^\w\s-]', '', title.lower())` then `re.sub(r'[-\s]+', '-', …)`.
Both patterns are character-class based, so they embed as a filter and a
run-collapsing map.
-/

/-- Characters kept by `re.sub(r'[^\w\s-]', '', ·)`. -/
def slugKeep (c : Char) : Bool := pyIsWord c || pyIsSpace c || c = '-'

/-- Characters matched by `[-\s]`. -/
def spaceHyphen (c : Char) : Bool := pyIsSpace c || c = '-'

/-- `re.sub(r'[-\s]+', '-', ·)`: collapse each maximal run of whitespace and
hyphens into a single hyphen.  The flag records whether the previous character
was part of such a run (so the hyphen is emitted once per run). -/
def collapseAux : Bool → Str → Str
  | _, [] => []
  | inRun, c :: rest =>
    if spaceHyphen c then
      (if inRun then [] else ['-']) ++ collapseAux true rest
    else c :: collapseAux false rest

/-- Collapse each maximal `[-\s]+` run into one `-`. -/
def collapseRuns (s : Str) : Str := collapseAux false s

/-- The slug of a title: lowercase, strip non-`[\w\s-]` characters, collapse
whitespace/hyphen runs to single hyphens (lines 168–169 and 214–215). -/
def slugify (title : Str) : Str :=
  collapseRuns ((title.map pyLower).filter slugKeep)

/-!
## Content hashing (`generate_image_filename`, lines 138–145)

The source computes `hashlib.md5(file_bytes).hexdigest()[:8]`.  MD5 is
implemented here directly (RFC 1321) over byte lists, with 32-bit words as
`Nat` reduced modulo `2^32`.
-/

/-- Truncate to a 32-bit word. -/
def w32 (n : Nat) : Nat := n % 4294967296

/-- 32-bit left rotation. -/
def rotl32 (x c : Nat) : Nat :=
  w32 (x * 2 ^ c + x / 2 ^ (32 - c))

/-- The 64 MD5 round constants `K[i] = floor(abs(sin(i+1)) * 2^32)`. -/
def md5K : List Nat :=
  [3614090360, 3905402710, 606105819, 3250441966, 4118548399, 1200080426,
   2821735955, 4249261313, 1770035416, 2336552879, 4294925233, 2304563134,
   1804603682, 4254626195, 2792965006, 1236535329, 4129170786, 3225465664,
   643717713, 3921069994, 3593408605, 38016083, 3634488961, 3889429448,
   568446438, 3275163606, 4107603335, 1163531501, 2850285829, 4243563512,
   1735328473, 2368359562, 4294588738, 2272392833, 1839030562, 4259657740,
   2763975236, 1272893353, 4139469664, 3200236656, 681279174, 3936430074,
   3572445317, 76029189, 3654602809, 3873151461, 530742520, 3299628645,
   4096336452, 1126891415, 2878612391, 4237533241, 1700485571, 2399980690,
   4293915773, 2240044497, 1873313359, 4264355552, 2734768916, 1309151649,
   4149444226, 3174756917, 718787259, 3951481745]

/-- The MD5 per-round left-rotation amounts. -/
def md5S : List Nat :=
  [7, 12, 17, 22, 7, 12, 17, 22, 7, 12, 17, 22, 7, 12, 17, 22,
   5, 9, 14, 20, 5, 9, 14, 20, 5, 9, 14, 20, 5, 9, 14, 20,
   4, 11, 16, 23, 4, 11, 16, 23, 4, 11, 16, 23, 4, 11, 16, 23,
   6, 10, 15, 21, 6, 10, 15, 21, 6, 10, 15, 21, 6, 10, 15, 21]

/-- MD5 padding: append `0x80`, zero-fill to 56 mod 64, append the original
bit length as a 64-bit little-endian quantity. -/
def md5Pad (msg : List Nat) : List Nat :=
  let bitLen := (msg.length * 8) % 2 ^ 64
  let padLen := (55 + 64 - msg.length % 64) % 64
  msg ++ 128 :: List.replicate padLen 0 ++
    (List.range 8).map (fun i => bitLen / 2 ^ (8 * i) % 256)

/-- Split a message into 16-word (little-endian) blocks; the first argument is
the number of 64-byte blocks remaining. -/
def md5BlocksAux : Nat → List Nat → List (List Nat)
  | 0, _ => []
  | n + 1, msg =>
    ((List.range 16).map (fun i =>
       (msg.take 64).drop (4 * i) |>.take 4 |>.reverse.foldl (fun a b => a * 256 + b) 0))
    :: md5BlocksAux n (msg.drop 64)

/-- Split a padded message into 16-word (little-endian) blocks. -/
def md5Blocks (msg : List Nat) : List (List Nat) :=
  md5BlocksAux (msg.length / 64) msg

/-- One MD5 round: given the block `M`, round index `i` and state
`(A, B, C, D)`, produce the next state. -/
def md5Round (M : List Nat) (i : Nat) : Nat × Nat × Nat × Nat → Nat × Nat × Nat × Nat
  | (A, B, C, D) =>
    let F :=
      if i < 16 then (B &&& C) ||| ((B ^^^ 4294967295) &&& D)
      else if i < 32 then (D &&& B) ||| ((D ^^^ 4294967295) &&& C)
      else if i < 48 then B ^^^ C ^^^ D
      else C ^^^ (B ||| (D ^^^ 4294967295))
    let g :=
      if i < 16 then i
      else if i < 32 then (5 * i + 1) % 16
      else if i < 48 then (3 * i + 5) % 16
      else 7 * i % 16
    let F2 := w32 (F + A + md5K.getD i 0 + M.getD g 0)
    (D, w32 (B + rotl32 F2 (md5S.getD i 0)), B, C)

/-- Process one 16-word block, updating the running state. -/
def md5Block (st : Nat × Nat × Nat × Nat) (M : List Nat) : Nat × Nat × Nat × Nat :=
  let r := (List.range 64).foldl (fun s i => md5Round M i s) st
  (w32 (st.1 + r.1), w32 (st.2.1 + r.2.1), w32 (st.2.2.1 + r.2.2.1), w32 (st.2.2.2 + r.2.2.2))

/-- The MD5 digest of a byte list, as 16 bytes. -/
def md5Digest (msg : List Nat) : List Nat :=
  let st := (md5Blocks (md5Pad msg)).foldl md5Block
    (1732584193, 4023233417, 2562383102, 271733878)
  [st.1, st.2.1, st.2.2.1, st.2.2.2].flatMap
    (fun x => (List.range 4).map (fun i => x / 2 ^ (8 * i) % 256))

/-- A nibble as a lowercase hex character. -/
def hexChar (n : Nat) : Char :=
  if n < 10 then Char.ofNat (48 + n) else Char.ofNat (87 + n)

/-- Lowercase hex string of a byte list. -/
def hexStr (bytes : List Nat) : Str :=
  bytes.flatMap (fun b => [hexChar (b / 16 % 16), hexChar (b % 16)])

/-- `hashlib.md5(bytes).hexdigest()`. -/
def md5Hex (msg : List Nat) : Str := hexStr (md5Digest msg)

/-!
## Percent-decoding (`urllib.parse.unquote`, line 103)

`unquote` decodes each maximal run of `%XX` hex escapes as a byte string and
decodes it as UTF-8 with `errors='replace'`; a `%` not followed by two hex
digits is left literal.
-/

/-- Hex digit test (both cases). -/
def isHexDigit (c : Char) : Bool :=
  pyIsDigit c || (97 ≤ c.toNat && c.toNat ≤ 102) || (65 ≤ c.toNat && c.toNat ≤ 70)

/-- Value of a hex digit. -/
def hexVal (c : Char) : Nat :=
  if c.toNat ≤ 57 then c.toNat - 48
  else if c.toNat ≤ 70 then c.toNat - 55
  else c.toNat - 87

/-- Is a byte a UTF-8 continuation byte? -/
def isCont (b : Nat) : Bool := 128 ≤ b && b ≤ 191

/-- Valid second byte of a 3-byte UTF-8 sequence led by `b`. -/
def cont3Ok (b b2 : Nat) : Bool :=
  if b = 224 then 160 ≤ b2 && b2 ≤ 191
  else if b = 237 then 128 ≤ b2 && b2 ≤ 159
  else isCont b2

/-- Valid second byte of a 4-byte UTF-8 sequence led by `b`. -/
def cont4Ok (b b2 : Nat) : Bool :=
  if b = 240 then 144 ≤ b2 && b2 ≤ 191
  else if b = 244 then 128 ≤ b2 && b2 ≤ 143
  else isCont b2

/-- The Unicode replacement character. -/
def replChar : Char := Char.ofNat 65533

/-- Strict UTF-8 decoding of a byte list (`None` on any invalid sequence),
modelling `open(..., encoding='utf-8')` followed by `read`. -/
def utf8DecodeStrict : List Nat → Option Str
  | [] => some []
  | b :: rest =>
    if b < 128 then (utf8DecodeStrict rest).map (Char.ofNat b :: ·)
    else if 194 ≤ b ∧ b ≤ 223 then
      match rest with
      | b2 :: r2 =>
        if isCont b2 then (utf8DecodeStrict r2).map (Char.ofNat ((b - 192) * 64 + (b2 - 128)) :: ·)
        else none
      | [] => none
    else if 224 ≤ b ∧ b ≤ 239 then
      match rest with
      | b2 :: b3 :: r3 =>
        if cont3Ok b b2 && isCont b3 then
          (utf8DecodeStrict r3).map (Char.ofNat ((b - 224) * 4096 + (b2 - 128) * 64 + (b3 - 128)) :: ·)
        else none
      | _ => none
    else if 240 ≤ b ∧ b ≤ 244 then
      match rest with
      | b2 :: b3 :: b4 :: r4 =>
        if cont4Ok b b2 && isCont b3 && isCont b4 then
          (utf8DecodeStrict r4).map
            (Char.ofNat ((b - 240) * 262144 + (b2 - 128) * 4096 + (b3 - 128) * 64 + (b4 - 128)) :: ·)
        else none
      | _ => none
    else none

/-- UTF-8 decoding with `errors='replace'` (each maximal invalid subpart
becomes one replacement character), fuelled by an upper bound on the number of
bytes left (each step consumes at least one byte). -/
def utf8ReplaceFuel : Nat → List Nat → Str
  | 0, _ => []
  | _, [] => []
  | fuel + 1, b :: rest =>
    if b < 128 then Char.ofNat b :: utf8ReplaceFuel fuel rest
    else if 194 ≤ b ∧ b ≤ 223 then
      match rest with
      | b2 :: r2 =>
        if isCont b2 then Char.ofNat ((b - 192) * 64 + (b2 - 128)) :: utf8ReplaceFuel fuel r2
        else replChar :: utf8ReplaceFuel fuel rest
      | [] => [replChar]
    else if 224 ≤ b ∧ b ≤ 239 then
      match rest with
      | b2 :: b3 :: r3 =>
        if cont3Ok b b2 then
          if isCont b3 then
            Char.ofNat ((b - 224) * 4096 + (b2 - 128) * 64 + (b3 - 128)) :: utf8ReplaceFuel fuel r3
          else replChar :: utf8ReplaceFuel fuel (b3 :: r3)
        else replChar :: utf8ReplaceFuel fuel (b2 :: b3 :: r3)
      | [b2] => if cont3Ok b b2 then [replChar] else [replChar, replChar]
      | [] => [replChar]
    else if 240 ≤ b ∧ b ≤ 244 then
      match rest with
      | b2 :: b3 :: b4 :: r4 =>
        if cont4Ok b b2 then
          if isCont b3 then
            if isCont b4 then
              Char.ofNat ((b - 240) * 262144 + (b2 - 128) * 4096 + (b3 - 128) * 64 + (b4 - 128))
                :: utf8ReplaceFuel fuel r4
            else replChar :: utf8ReplaceFuel fuel (b4 :: r4)
          else replChar :: utf8ReplaceFuel fuel (b3 :: b4 :: r4)
        else replChar :: utf8ReplaceFuel fuel (b2 :: b3 :: b4 :: r4)
      | [b2, b3] =>
        if cont4Ok b b2 then (if isCont b3 then [replChar] else [replChar, replChar])
        else replChar :: utf8ReplaceFuel fuel [b2, b3]
      | [b2] => if cont4Ok b b2 then [replChar] else [replChar, replChar]
      | [] => [replChar]
    else replChar :: utf8ReplaceFuel fuel rest

/-- UTF-8 decoding with `errors='replace'`. -/
def utf8DecodeReplace (bs : List Nat) : Str := utf8ReplaceFuel bs.length bs

/-- Collect a maximal run of `%XX` escapes, returning the decoded bytes and
the remaining text. -/
def collectPct : Str → List Nat × Str
  | p :: h1 :: h2 :: rest =>
    if p = '%' ∧ isHexDigit h1 ∧ isHexDigit h2 then
      let (bs, r) := collectPct rest
      ((hexVal h1 * 16 + hexVal h2) :: bs, r)
    else ([], p :: h1 :: h2 :: rest)
  | s => ([], s)

/-- Fuelled scanner for `urllib.parse.unquote`; the fuel is an upper bound on
the number of characters left (each step consumes at least one). -/
def unquoteFuel : Nat → Str → Str
  | 0, s => s
  | _, [] => []
  | fuel + 1, c :: rest =>
    if c = '%' then
      match collectPct (c :: rest) with
      | ([], _) => c :: unquoteFuel fuel rest
      | (bs, r) => utf8DecodeReplace bs ++ unquoteFuel fuel r
    else c :: unquoteFuel fuel rest

/-- `urllib.parse.unquote` (ASCII model of the surrounding text). -/
def pyUnquote (s : Str) : Str := unquoteFuel s.length s

/-!
## Image reference patterns (`find_and_copy_images`, lines 87–94, and
`update_image_paths`, lines 147–163)

Four regexes are embedded as deterministic scanners with Python `re`
semantics (leftmost match, non-overlapping continuation after each match,
greedy character classes with backtracking where the pattern requires it):

* findall `!\[([^\]]*)\]\(([^)]+)\)`      (markdown image references)
* findall `<img[^>]+src=["\']([^"\']+)["\'][^>]*>`   (HTML image references)
* sub `!\[([^\]]*)\]\(OLD\)` → `![\1](NEW)`
* sub `<img([^>]+)src=["\']OLD["\']([^>]*)>` → `<img\1src="NEW"\2>`
-/

/-- Is a character one of the two quote characters of the class `["\']`? -/
def isQuote (c : Char) : Bool := c = '"' || c = quoteChar

/-- Try to match `!\[([^\]]*)\]\(([^)]+)\)` at the head of `s`; on success
return the two captures (alt text, path) and the remaining text. -/
def mdMatchStep : Str → Option ((Str × Str) × Str)
  | '!' :: '[' :: t =>
    let alt := t.takeWhile (· ≠ ']')
    match t.dropWhile (· ≠ ']') with
    | ']' :: '(' :: t2 =>
      let path := t2.takeWhile (· ≠ ')')
      match t2.dropWhile (· ≠ ')') with
      | ')' :: rem => if path.isEmpty then none else some ((alt, path), rem)
      | _ => none
    | _ => none
  | _ => none

/-- Fuelled scan collecting all matches of the markdown image pattern
(`re.findall`); fuel bounds the number of characters left. -/
def mdFindFuel : Nat → Str → List (Str × Str)
  | 0, _ => []
  | _, [] => []
  | fuel + 1, c :: rest =>
    match mdMatchStep (c :: rest) with
    | some (g, rem) => g :: mdFindFuel fuel rem
    | none => mdFindFuel fuel rest

/-- `re.findall(r'!\[([^\]]*)\]\(([^)]+)\)', s)`. -/
def mdFindAll (s : Str) : List (Str × Str) := mdFindFuel s.length s

/-- Check the HTML findall pattern with exactly `k` characters of `[^>]+`
between `<img` and `src=`: `t` is the text after `<img`.  Returns the captured
path and the remaining text. -/
def htmlCheckAt (t : Str) (k : Nat) : Option (Str × Str) :=
  match t.drop k with
  | 's' :: 'r' :: 'c' :: '=' :: q :: u2 =>
    if isQuote q then
      let path := u2.takeWhile (fun c => !(isQuote c))
      if path.isEmpty then none
      else
        match u2.dropWhile (fun c => !(isQuote c)) with
        | _ :: u3 =>
          match u3.dropWhile (· ≠ '>') with
          | '>' :: rem => some (path, rem)
          | _ => none
        | [] => none
    else none
  | _ => none

/-- Greedy backtracking over the `[^>]+` length: try `k, k-1, …, 1`. -/
def htmlTryK (t : Str) : Nat → Option (Str × Str)
  | 0 => none
  | k + 1 =>
    match htmlCheckAt t (k + 1) with
    | some r => some r
    | none => htmlTryK t k

/-- Try to match `<img[^>]+src=["\']([^"\']+)["\'][^>]*>` at the head of `s`. -/
def htmlMatchStep : Str → Option (Str × Str)
  | '<' :: 'i' :: 'm' :: 'g' :: t => htmlTryK t (t.takeWhile (· ≠ '>')).length
  | _ => none

/-- Fuelled scan collecting all matches of the HTML image pattern. -/
def htmlFindFuel : Nat → Str → List Str
  | 0, _ => []
  | _, [] => []
  | fuel + 1, c :: rest =>
    match htmlMatchStep (c :: rest) with
    | some (p, rem) => p :: htmlFindFuel fuel rem
    | none => htmlFindFuel fuel rest

/-- `re.findall(r'<img[^>]+src=["\']([^"\']+)["\'][^>]*>', s)`. -/
def htmlFindAll (s : Str) : List Str := htmlFindFuel s.length s

/-- Try to match `!\[([^\]]*)\]\(OLD\)` (with `OLD` a literal, as produced by
`re.escape`) at the head of `s`; return the alt capture and the remainder. -/
def mdSubStep (old : Str) : Str → Option (Str × Str)
  | '!' :: '[' :: t =>
    let alt := t.takeWhile (· ≠ ']')
    match t.dropWhile (· ≠ ']') with
    | ']' :: '(' :: t2 =>
      if old.isPrefixOf t2 then
        match t2.drop old.length with
        | ')' :: rem => some (alt, rem)
        | _ => none
      else none
    | _ => none
  | _ => none

/-- Fuelled `re.sub` for the markdown image pattern with literal path `old`,
replacement `![\1](new)`. -/
def mdSubFuel (old new : Str) : Nat → Str → Str
  | 0, s => s
  | _, [] => []
  | fuel + 1, c :: rest =>
    match mdSubStep old (c :: rest) with
    | some (alt, rem) =>
      '!' :: '[' :: alt ++ ']' :: '(' :: new ++ ')' :: mdSubFuel old new fuel rem
    | none => c :: mdSubFuel old new fuel rest

/-- `re.sub(r'!\[([^\]]*)\]\(' + re.escape(old) + r'\)', f'![\1](new)', s)`
(line 151–155). -/
def mdSub (old new s : Str) : Str := mdSubFuel old new s.length s

/-- Check the HTML sub pattern `<img([^>]+)src=["\']OLD["\']([^>]*)>` with
exactly `k` characters of `[^>]+`; returns the two attribute captures and the
remaining text. -/
def htmlSubCheckAt (old : Str) (t : Str) (k : Nat) : Option ((Str × Str) × Str) :=
  match t.drop k with
  | 's' :: 'r' :: 'c' :: '=' :: q :: u2 =>
    if isQuote q then
      if old.isPrefixOf u2 then
        match u2.drop old.length with
        | q2 :: u3 =>
          if isQuote q2 then
            match u3.dropWhile (· ≠ '>') with
            | '>' :: rem => some ((t.take k, u3.takeWhile (· ≠ '>')), rem)
            | _ => none
          else none
        | [] => none
      else none
    else none
  | _ => none

/-- Greedy backtracking over the `([^>]+)` capture length for the sub
pattern. -/
def htmlSubTryK (old : Str) (t : Str) : Nat → Option ((Str × Str) × Str)
  | 0 => none
  | k + 1 =>
    match htmlSubCheckAt old t (k + 1) with
    | some r => some r
    | none => htmlSubTryK old t k

/-- Try to match `<img([^>]+)src=["\']OLD["\']([^>]*)>` at the head of `s`. -/
def htmlSubStep (old : Str) : Str → Option ((Str × Str) × Str)
  | '<' :: 'i' :: 'm' :: 'g' :: t => htmlSubTryK old t (t.takeWhile (· ≠ '>')).length
  | _ => none

/-- Fuelled `re.sub` for the HTML image pattern with literal path `old`,
replacement `<img\1src="new"\2>`. -/
def htmlSubFuel (old new : Str) : Nat → Str → Str
  | 0, s => s
  | _, [] => []
  | fuel + 1, c :: rest =>
    match htmlSubStep old (c :: rest) with
    | some ((a1, a2), rem) =>
      '<' :: 'i' :: 'm' :: 'g' :: a1 ++ 's' :: 'r' :: 'c' :: '=' :: '"' :: new ++ '"' :: a2 ++
        '>' :: htmlSubFuel old new fuel rem
    | none => c :: htmlSubFuel old new fuel rest

/-- `re.sub(r'<img([^>]+)src=["\']' + re.escape(old) + r'["\']([^>]*)>',
f'<img\1src="new"\2>', s)` (lines 157–161). -/
def htmlSub (old new s : Str) : Str := htmlSubFuel old new s.length s

/-- `MarkdownMigrator.update_image_paths` (lines 147–163): apply both
substitutions for every `(old, new)` pair of the mapping in insertion
order. -/
def update_image_paths (content : Str) (mapping : List (Str × Str)) : Str :=
  mapping.foldl (fun c p => htmlSub p.1 p.2 (mdSub p.1 p.2 c)) content

/-!
## Filesystem model and image resolution (lines 83–145)

Paths are strings; the filesystem is an association list from absolute paths
to file entries (bytes, readability, modification date).  `pathlib` joining is
modelled as string concatenation with `/` (an absolute right operand wins),
which is exact for the path forms exercised here.  Reads of image bytes and
all writes are assumed to succeed; the markdown read models failure
(missing/unreadable file or invalid UTF-8), which is what the per-document
error boundary of the driver catches.
-/

/-- A calendar date (the `datetime.fromtimestamp(st_mtime)` value of a file,
kept abstract as year/month/day since only `strftime` formatting is used). -/
structure PDate where
  year : Nat
  month : Nat
  day : Nat
deriving DecidableEq, Repr

/-- A file on disk: content bytes, readability, and modification date. -/
structure FileEntry where
  bytes : List Nat
  readable : Bool
  date : PDate
deriving DecidableEq, Repr

/-- The filesystem: an association list from paths to entries. -/
abbrev FileSys := List (Str × FileEntry)

/-- Look up a path. -/
def fsLookup (fs : FileSys) (p : Str) : Option FileEntry :=
  (fs.find? (fun e => e.1 == p)).map (·.2)

/-- Bytes of a file, defaulting to empty (callers only use existing files). -/
def fsBytes (fs : FileSys) (p : Str) : List Nat :=
  ((fsLookup fs p).map (·.bytes)).getD []

/-- `pathlib` `/`-join: an absolute right operand replaces the left. -/
def joinPath (dir p : Str) : Str :=
  if p.head? = some '/' then p else dir ++ '/' :: p

/-- `Path(p).name`: the part after the last `/`. -/
def basename (p : Str) : Str := (p.reverse.takeWhile (· ≠ '/')).reverse

/-- `Path(p).suffix`: the extension of the last component including the dot;
empty when the last component has no interior dot. -/
def pathSuffix (p : Str) : Str :=
  let n := basename p
  let pre := n.reverse.takeWhile (· ≠ '.')
  if 0 < pre.length ∧ pre.length + 1 < n.length then '.' :: pre.reverse else []

/-- `Path(p).parent` as a string. -/
def dirname (p : Str) : Str :=
  let r := p.reverse.dropWhile (· ≠ '/')
  if r = [] then ['.'] else if r = ['/'] then ['/'] else (r.drop 1).reverse

/-- Lowercase a string (`str.lower`, ASCII model). -/
def lowerStr (s : Str) : Str := s.map pyLower

/-- `self.supported_image_extensions` (line 35). -/
def supported_image_extensions : List Str :=
  [".jpg".data, ".jpeg".data, ".png".data, ".gif".data, ".bmp".data, ".svg".data, ".webp".data]

/-- `MarkdownMigrator.find_image_file` (lines 122–136): try the path as
given (relative paths resolve against the working directory), relative to the
document's directory, the `images/` subdirectory with just the base name, and
the working directory; the first candidate that exists with a supported
extension wins. -/
def find_image_file (fs : FileSys) (cwd srcDir : Str) (image_path : Str) : Option Str :=
  [joinPath cwd image_path,
   joinPath srcDir image_path,
   joinPath (joinPath srcDir "images".data) (basename image_path),
   joinPath cwd image_path].find?
    (fun p => (fsLookup fs p).isSome && supported_image_extensions.contains (lowerStr (pathSuffix p)))

/-- `MarkdownMigrator.generate_image_filename` (lines 138–145):
`md5(file_bytes).hexdigest()[:8] + suffix.lower()`. -/
def generate_image_filename (fs : FileSys) (sourceFile : Str) : Str :=
  (md5Hex (fsBytes fs sourceFile)).take 8 ++ lowerStr (pathSuffix sourceFile)

/-- Does the (percent-decoded) path point at a remote image (line 106)? -/
def isRemote (p : Str) : Bool :=
  "http://".data.isPrefixOf p || "https://".data.isPrefixOf p

/-- Dictionary update: replace the value of an existing key in place, else
append (Python `dict` insertion semantics; also used for directory
contents, where writing an existing name overwrites). -/
def assocUpdate {α : Type} (m : List (Str × α)) (k : Str) (v : α) : List (Str × α) :=
  if m.any (·.1 == k) then m.map (fun e => if e.1 == k then (k, v) else e) else m ++ [(k, v)]

/-- The image store: an association list from store filenames to bytes
(the contents of the `images` output directory). -/
abbrev Store := List (Str × List Nat)

/-- One iteration of the loop body of `find_and_copy_images` (lines 95–118)
for a single found reference path `p`: decode percent-escapes, skip remote
references, locate the file, and on success copy it into the store and record
the mapping under the decoded path. -/
def copyStep (fs : FileSys) (cwd srcDir : Str) (acc : List (Str × Str) × Store) (p : Str) :
    List (Str × Str) × Store :=
  let d := pyUnquote p
  if isRemote d then acc
  else
    match find_image_file fs cwd srcDir d with
    | none => acc
    | some f =>
      (assocUpdate acc.1 d ("/images/".data ++ generate_image_filename fs f),
       assocUpdate acc.2 (generate_image_filename fs f) (fsBytes fs f))

/-- The reference paths found in a document, in processing order: all
markdown-pattern matches, then all HTML-pattern matches (lines 88–94). -/
def foundPaths (content : Str) : List Str :=
  (mdFindAll content).map (·.2) ++ htmlFindAll content

/-- `MarkdownMigrator.find_and_copy_images` (lines 83–120): returns the
old→new mapping (keyed by decoded path) and the updated image store. -/
def find_and_copy_images (fs : FileSys) (cwd srcDir : Str) (store : Store) (content : Str) :
    List (Str × Str) × Store :=
  (foundPaths content).foldl (copyStep fs cwd srcDir) ([], store)

/-!
## Front matter (`generate_jekyll_front_matter`, lines 165–184)
-/

/-- Decimal digits of a natural number. -/
def natStr (n : Nat) : Str := (toString n).data

/-- `strftime` `%m`/`%d`: zero-padded to two digits. -/
def pad2 (n : Nat) : Str := if n < 10 then '0' :: natStr n else natStr n

/-- `strftime` `%Y`: zero-padded to four digits. -/
def pad4 (n : Nat) : Str :=
  if n < 10 then '0' :: '0' :: '0' :: natStr n
  else if n < 100 then '0' :: '0' :: natStr n
  else if n < 1000 then '0' :: natStr n
  else natStr n

/-- `date.strftime('%Y-%m-%d')`. -/
def fmtYMD (d : PDate) : Str := pad4 d.year ++ '-' :: pad2 d.month ++ '-' :: pad2 d.day

/-- `date.strftime('%Y/%m')`. -/
def fmtYM (d : PDate) : Str := pad4 d.year ++ '/' :: pad2 d.month

/-- The permalink `/posts/<Y>/<m>/<slug>/` (line 170). -/
def permalinkOf (title : Str) (date : PDate) : Str :=
  "/posts/".data ++ fmtYM date ++ '/' :: slugify title ++ ['/']

/-- `MarkdownMigrator.generate_jekyll_front_matter` (lines 165–184): the
f-string block, with the title spliced verbatim between single quotes,
followed by one bulleted line per tag and the closing marker. -/
def generate_jekyll_front_matter (title : Str) (date : PDate) (tags : List Str) : Str :=
  "---\n".data ++ "title: ".data ++ quoteChar :: title ++ [quoteChar, '\n'] ++
    "date: ".data ++ fmtYMD date ++ ['\n'] ++ "permalink: ".data ++ permalinkOf title date ++
    ['\n'] ++ "tags:\n".data ++ tags.flatMap (fun t => "  - ".data ++ t ++ ['\n']) ++
    "---\n\n".data

/-!
## Tag extraction (`extract_tags_from_content`, lines 60–81)

The cleaning regexes of lines 63–69 are embedded as scanners; the
`jieba.analyse.extract_tags` call is an external library and is modelled as an
oracle parameter returning `none` when the call raises (the `except` branch of
lines 77–81).
-/

/-- `re.sub(r'[#*`\[\]()]', ' ', ·)` (line 63): a character-class
substitution, i.e. a character map. -/
def tagClean1 (s : Str) : Str :=
  s.map (fun c =>
    if c = '#' ∨ c = '*' ∨ c = btChar ∨ c = '[' ∨ c = ']' ∨ c = '(' ∨ c = ')' then ' ' else c)

/-- Try to match `\[([^\]]+)\]\([^)]+\)` at the head of `s` (line 64);
returns the visible link text and the remainder. -/
def linkMatchStep : Str → Option (Str × Str)
  | '[' :: t =>
    let txt := t.takeWhile (· ≠ ']')
    if txt.isEmpty then none
    else
      match t.dropWhile (· ≠ ']') with
      | ']' :: '(' :: t2 =>
        let url := t2.takeWhile (· ≠ ')')
        match t2.dropWhile (· ≠ ')') with
        | ')' :: rem => if url.isEmpty then none else some (txt, rem)
        | _ => none
      | _ => none
  | _ => none

/-- Fuelled `re.sub(r'\[([^\]]+)\]\([^)]+\)', r'\1', ·)`. -/
def linkSubFuel : Nat → Str → Str
  | 0, s => s
  | _, [] => []
  | fuel + 1, c :: rest =>
    match linkMatchStep (c :: rest) with
    | some (txt, rem) => txt ++ linkSubFuel fuel rem
    | none => c :: linkSubFuel fuel rest

/-- Collapse markdown links to their visible text (line 64). -/
def linkSub (s : Str) : Str := linkSubFuel s.length s

/-- Fuelled `re.sub(r'!\[([^\]]*)\]\([^)]+\)', '', ·)` (line 65), reusing the
markdown image matcher. -/
def imgDeleteFuel : Nat → Str → Str
  | 0, s => s
  | _, [] => []
  | fuel + 1, c :: rest =>
    match mdMatchStep (c :: rest) with
    | some (_, rem) => imgDeleteFuel fuel rem
    | none => c :: imgDeleteFuel fuel rest

/-- Delete markdown image syntax (line 65). -/
def imgDelete (s : Str) : Str := imgDeleteFuel s.length s

/-- Find the closing triple backtick; returns the text after it. -/
def tripleSplit : Str → Option Str
  | c1 :: c2 :: c3 :: r =>
    if c1 = btChar ∧ c2 = btChar ∧ c3 = btChar then some r
    else tripleSplit (c2 :: c3 :: r)
  | _ => none

/-- Fuelled `re.sub(r'```[\s\S]*?```', '', ·)` (line 68): lazy inner match,
so a fence closes at the first following triple backtick. -/
def codeBlockSubFuel : Nat → Str → Str
  | 0, s => s
  | _, [] => []
  | fuel + 1, c :: rest =>
    (if c = btChar then
      match rest with
      | c2 :: c3 :: r =>
        if c2 = btChar ∧ c3 = btChar then
          match tripleSplit r with
          | some rem => codeBlockSubFuel fuel rem
          | none => c :: codeBlockSubFuel fuel rest
        else c :: codeBlockSubFuel fuel rest
      | _ => c :: codeBlockSubFuel fuel rest
    else c :: codeBlockSubFuel fuel rest)

/-- Delete fenced code blocks (line 68). -/
def codeBlockSub (s : Str) : Str := codeBlockSubFuel s.length s

/-- Fuelled `re.sub(r'`[^`]*`', '', ·)` (line 69). -/
def inlineCodeSubFuel : Nat → Str → Str
  | 0, s => s
  | _, [] => []
  | fuel + 1, c :: rest =>
    (if c = btChar then
      match rest.dropWhile (· ≠ btChar) with
      | _ :: rem => inlineCodeSubFuel fuel rem
      | [] => c :: inlineCodeSubFuel fuel rest
    else c :: inlineCodeSubFuel fuel rest)

/-- Delete inline code spans (line 69). -/
def inlineCodeSub (s : Str) : Str := inlineCodeSubFuel s.length s

/-- The cleaned content fed to keyword extraction (lines 63–69). -/
def cleanForTags (content : Str) : Str :=
  inlineCodeSub (codeBlockSub (imgDelete (linkSub (tagClean1 content))))

/-- `re.findall(r'\b[a-zA-Z]{3,}\b', ·)` (line 79): maximal alphabetic runs
of length at least three whose neighbours are not word characters.  The flag
records whether the previous character was a word character. -/
def englishWordsAux : Bool → Str → List Str
  | _, [] => []
  | prevW, c :: rest =>
    if pyIsAlpha c && !prevW then
      (if 3 ≤ ((c :: rest).takeWhile pyIsAlpha).length &&
          (match ((c :: rest).dropWhile pyIsAlpha).head? with
           | some d => !(pyIsWord d)
           | none => true) then [(c :: rest).takeWhile pyIsAlpha] else [])
        ++ englishWordsAux (pyIsWord c) rest
    else englishWordsAux (pyIsWord c) rest

/-- All `\b[a-zA-Z]{3,}\b` tokens of a string. -/
def englishWords (s : Str) : List Str := englishWordsAux false s

/-- Occurrences of `w` in `ws`. -/
def countOcc (w : Str) (ws : List Str) : Nat := (ws.filter (· == w)).length

/-- Distinct elements in first-occurrence order (Python `dict`/`Counter`
iteration order). -/
def dedupAux (seen : List Str) : List Str → List Str
  | [] => []
  | w :: rest => if seen.contains w then dedupAux seen rest else w :: dedupAux (w :: seen) rest

/-- Distinct elements in first-occurrence order. -/
def dedupFirst (ws : List Str) : List Str := dedupAux [] ws

/-- Insert into a count-descending list, after all entries with a count at
least as large (so the sort is stable, as Python's is). -/
def insertDesc (x : Str × Nat) : List (Str × Nat) → List (Str × Nat)
  | [] => [x]
  | y :: ys => if x.2 ≤ y.2 then y :: insertDesc x ys else x :: y :: ys

/-- `Counter(ws).most_common(n)`: pairs sorted by count descending, ties in
first-occurrence order, truncated to `n`. -/
def most_common (ws : List Str) (n : Nat) : List (Str × Nat) :=
  (((dedupFirst ws).map (fun w => (w, countOcc w ws))).foldl
    (fun acc x => insertDesc x acc) []).take n

/-- The `except` branch of lines 77–81: frequency of alphabetic words of
length at least 3 in the lowercased cleaned content. -/
def fallbackTags (cleaned : Str) (maxTags : Nat) : List Str :=
  (most_common (englishWords (lowerStr cleaned)) maxTags).map (·.1)

/-- `MarkdownMigrator.extract_tags_from_content` (lines 60–81).  `jieba` is
the external keyword extractor, modelled as an oracle; `none` models the call
raising, which the source catches with a bare `except`. -/
def extract_tags_from_content (jieba : Str → Nat → Option (List Str)) (content : Str)
    (maxTags : Nat) : List Str :=
  let cleaned := cleanForTags content
  match jieba cleaned maxTags with
  | some keywords => (keywords.filter (fun kw => 1 < kw.length)).take maxTags
  | none => fallbackTags cleaned maxTags

/-!
## Pipeline driver (`process_markdown_file` and `process_directory`,
lines 186–259)
-/

/-- Mutable world state: source filesystem, image store directory, and posts
output directory. -/
structure World where
  fs : FileSys
  store : Store
  posts : List (Str × Str)
deriving DecidableEq, Repr

/-- Per-run configuration: whether `input_path` is a single file, its stem,
the working directory, and the keyword-extractor oracle. -/
structure Config where
  inputIsFile : Bool
  inputStem : Str
  cwd : Str
  jieba : Str → Nat → Option (List Str)

/-- Reading a markdown document as UTF-8 text; `none` models the exception
(missing file, permission error, or decode error). -/
def readDoc (w : World) (p : Str) : Option Str :=
  match fsLookup w.fs p with
  | some e => if e.readable then utf8DecodeStrict e.bytes else none
  | none => none

/-- `MarkdownMigrator.process_markdown_file` (lines 186–235): the whole body
runs inside one `try`; on any failure the function returns `False` and the
world is unchanged (in this model the only failure point is the read). -/
def process_markdown_file (cfg : Config) (w : World) (p : Str) : Bool × World :=
  match fsLookup w.fs p, readDoc w p with
  | some entry, some content =>
    let title := extract_title_from_content content cfg.inputIsFile cfg.inputStem
    let tags := extract_tags_from_content cfg.jieba content 5
    let date := entry.date
    let r := find_and_copy_images w.fs cfg.cwd (dirname p) w.store content
    let content2 := update_image_paths content r.1
    let fm := generate_jekyll_front_matter title date tags
    let filename := fmtYMD date ++ '-' :: slugify title ++ ".md".data
    (true, { w with store := r.2, posts := assocUpdate w.posts filename (fm ++ content2) })
  | _, _ => (false, w)

/-- `MarkdownMigrator.process_directory` (lines 237–259), given the
discovered document list: process each in turn, counting successes. -/
def process_directory (cfg : Config) (w : World) (docs : List Str) : Nat × World :=
  docs.foldl (fun acc p =>
    let r := process_markdown_file cfg acc.2 p
    (acc.1 + (if r.1 then 1 else 0), r.2)) (0, w)

/-!
## Specification-side definitions

These definitions follow the wording of the specification (not the source)
and are used to compare the code's behaviour against the spec's claims.
-/

/-- Generic association-list lookup (first binding wins). -/
def assocLookup {α : Type} (m : List (Str × α)) (k : Str) : Option α :=
  (m.find? (fun e => e.1 == k)).map (·.2)

/-- The lines of a text, splitting at `\n`. -/
def splitLines : Str → List Str
  | [] => [[]]
  | c :: rest =>
    match splitLines rest with
    | l :: ls => if c = '\n' then [] :: l :: ls else (c :: l) :: ls
    | [] => [[c]]

/-- Rejoin lines with newlines (left inverse of `splitLines`). -/
def joinLines : List Str → Str
  | [] => []
  | [l] => l
  | l :: ls => l ++ '\n' :: joinLines ls

/-- The spec's notion of a heading line: a line starting with a single `#`
followed by whitespace and (non-whitespace) text. -/
def claimHeadingLine : Str → Bool
  | '#' :: c :: rest => pyIsSpace c && !(pyStrip (c :: rest)).isEmpty
  | _ => false

/-- A heading stub: a line consisting of `#` followed by whitespace only
(including the bare line `#`).  At such a line the `\s+` of the source's
regex runs across the newline into following lines. -/
def stubLine : Str → Bool
  | '#' :: w => w.all pyIsSpace
  | _ => false

/-- The title the claim derives from the document text: the trimmed text of
the first heading line, when one exists. -/
def claimTitle (content : Str) : Option Str :=
  ((splitLines content).find? claimHeadingLine).map (fun l => pyStrip (l.drop 1))

/-- No stub line occurs before the first heading line (nor anywhere when no
heading line exists). -/
def noStubBeforeHeading (content : Str) : Bool :=
  ((splitLines content).takeWhile (fun l => !claimHeadingLine l)).all (fun l => !stubLine l)

/-- A shape of image reference for stating the rewriting claim: a markdown
reference with its alt text, or an HTML `img` tag with the attribute text
before and after `src=` and its two quote characters. -/
inductive RefShape where
  | md (alt : Str)
  | html (a1 a2 : Str) (q1 q2 : Char)

/-- Render a reference shape around the path `p`, as it appears in the
document before rewriting. -/
def renderOld (p : Str) : RefShape → Str
  | .md alt => '!' :: '[' :: alt ++ ']' :: '(' :: p ++ [')']
  | .html a1 a2 q1 q2 =>
    '<' :: 'i' :: 'm' :: 'g' :: a1 ++ 's' :: 'r' :: 'c' :: '=' :: q1 :: p ++ q2 :: a2 ++ ['>']

/-- Render a reference shape after rewriting to the path `p`: the markdown
form keeps its alt text, the HTML form keeps its surrounding attributes and
gets double quotes around `src`. -/
def renderNew (p : Str) : RefShape → Str
  | .md alt => '!' :: '[' :: alt ++ ']' :: '(' :: p ++ [')']
  | .html a1 a2 _ _ =>
    '<' :: 'i' :: 'm' :: 'g' :: a1 ++ 's' :: 'r' :: 'c' :: '=' :: '"' :: p ++ '"' :: a2 ++ ['>']

/-- Interleave separator text with rendered references:
`sep0 ref₁ sep₁ ref₂ sep₂ …`. -/
def buildDoc (render : RefShape → Str) (sep0 : Str) (parts : List (RefShape × Str)) : Str :=
  sep0 ++ parts.flatMap (fun pr => render pr.1 ++ pr.2)

/-- Side conditions on one reference shape making occurrences unambiguous:
alt text contains no `]` (the pattern's alt capture is `[^\]]*`) and no `<`;
HTML attribute runs are nonempty before `src=` (the pattern requires
`[^>]+`), contain no `>`, `<` or `!`, the part after the path contains no
`=`, and the quotes are quote characters. -/
def shapeOk : RefShape → Prop
  | .md alt => (']' ∉ alt) ∧ ('<' ∉ alt)
  | .html a1 a2 q1 q2 =>
    a1 ≠ [] ∧ isQuote q1 ∧ isQuote q2 ∧ ('>' ∉ a1) ∧ ('>' ∉ a2) ∧
      ('!' ∉ a1) ∧ ('!' ∉ a2) ∧ ('<' ∉ a1) ∧ ('<' ∉ a2) ∧ ('=' ∉ a2)

/-- Side conditions on separator text: it can neither start a markdown image
match (`!`) nor an HTML tag match (`<`). -/
def sepOk (s : Str) : Prop := ('!' ∉ s) ∧ ('<' ∉ s)

/-- Side conditions on the mapped pair: the old path is nonempty (the findall
path captures are) and neither path contains a character that could close or
reopen one of the two patterns. -/
def pairOk (old new : Str) : Prop :=
  old ≠ [] ∧ (')' ∉ old) ∧ ('>' ∉ old) ∧ ('<' ∉ old) ∧ ('!' ∉ old) ∧ ('=' ∉ old) ∧
    (Char.ofNat 34 ∉ old) ∧ (quoteChar ∉ old) ∧ ('<' ∉ new)

instance shapeOkDecidable : DecidablePred shapeOk := fun r =>
  match r with
  | RefShape.md alt =>
    (inferInstance : Decidable ((']' ∉ alt) ∧ ('<' ∉ alt)))
  | RefShape.html a1 a2 q1 q2 =>
    (inferInstance : Decidable (a1 ≠ [] ∧ isQuote q1 = true ∧ isQuote q2 = true ∧
      ('>' ∉ a1) ∧ ('>' ∉ a2) ∧ ('!' ∉ a1) ∧ ('!' ∉ a2) ∧ ('<' ∉ a1) ∧ ('<' ∉ a2) ∧
      ('=' ∉ a2)))

instance sepOkDecidable (s : Str) : Decidable (sepOk s) :=
  (inferInstance : Decidable (('!' ∉ s) ∧ ('<' ∉ s)))

instance pairOkDecidable (old new : Str) : Decidable (pairOk old new) :=
  (inferInstance : Decidable (old ≠ [] ∧ (')' ∉ old) ∧ ('>' ∉ old) ∧ ('<' ∉ old) ∧
    ('!' ∉ old) ∧ ('=' ∉ old) ∧ (Char.ofNat 34 ∉ old) ∧ (quoteChar ∉ old) ∧ ('<' ∉ new)))

/-- The rewriting applied for a single `(old, new)` mapping pair: the loop
body of `update_image_paths` (lines 149–161). -/
def updatePair (old new content : Str) : Str := htmlSub old new (mdSub old new content)

/-- Substring test (Python `in` for strings). -/
def isSubstr (pat : Str) : Str → Bool
  | [] => pat.isEmpty
  | c :: rest => pat.isPrefixOf (c :: rest) || isSubstr pat rest

/-!
## Concrete fixtures

Small worlds used by the closed counterexample and witness statements.
-/

/-- A fixed date for fixtures. -/
def d2021 : PDate := ⟨2021, 1, 1⟩

/-- Bytes of an ASCII string. -/
def asciiBytes (s : String) : List Nat := s.data.map Char.toNat

/-- Two files with identical bytes but different extensions. -/
def fsTwoExt : FileSys :=
  [("/a/x.png".data, ⟨[1, 2, 3], true, d2021⟩), ("/a/y.jpg".data, ⟨[1, 2, 3], true, d2021⟩)]

/-- Two files with identical bytes and the same extension up to case. -/
def fsSameExt : FileSys :=
  [("/a/b.png".data, ⟨[1, 2, 3], true, d2021⟩), ("/c/d.PNG".data, ⟨[1, 2, 3], true, d2021⟩)]

/-- A document whose only image reference is written with percent-encoding,
and a filesystem on which its decoded path resolves. -/
def encContent : Str := "![x](pic%201.png)".data

/-- Filesystem for `encContent`: the decoded path exists under the working
directory. -/
def fsEnc : FileSys := [("/cwd/pic 1.png".data, ⟨[1, 2, 3], true, d2021⟩)]

/-- A document containing a fenced code block with a heading and an image
reference inside the fence, before any real heading. -/
def fenceContent : Str := "```\n# Inside\n![x](code.png)\n```\n# Real\n".data

/-- Filesystem for `fenceContent`. -/
def fsFence : FileSys := [("/cwd/code.png".data, ⟨[9, 9, 9], true, d2021⟩)]

/-- A world with one valid markdown document and one unreadable one. -/
def wBatch : World :=
  ⟨[("/n/good.md".data, ⟨asciiBytes "# Hello\n\nsome words here\n", true, d2021⟩),
    ("/n/bad.md".data, ⟨asciiBytes "# Nope\n", false, d2021⟩)], [], []⟩

/-- Configuration used by the fixtures: directory-mode input, a fixed working
directory, and a keyword extractor that always fails (the stubbed `jieba`
raising, which the source recovers from). -/
def cfgFix : Config := ⟨false, [], "/cwd".data, fun _ _ => none⟩

/-!
# Theorems

Helper lemmas first, then one theorem per claim (with witnesses and
counterexamples where required).
-/

theorem toNat_ofNat_valid (n : Nat) (h : Nat.isValidChar n) : (Char.ofNat n).toNat = n := by
  unfold Char.ofNat
  split
  · simp only [Char.toNat, Char.ofNatAux, UInt32.toNat, BitVec.toNat_ofNatLt]
  · exact absurd h (by assumption)

theorem pyLower_idem (c : Char) : pyLower (pyLower c) = pyLower c := by
  unfold pyLower
  split
  · rename_i h
    have hv : Nat.isValidChar (c.toNat + 32) := Or.inl (by omega)
    rw [toNat_ofNat_valid _ hv]
    split
    · omega
    · rfl
  · rfl

theorem pyLower_hyphen : pyLower '-' = '-' := by decide

theorem collapseAux_mem : ∀ {l : Str} {b : Bool} {c : Char}, c ∈ collapseAux b l →
    c = '-' ∨ (c ∈ l ∧ spaceHyphen c = false) := by
  intro l
  induction l with
  | nil => intro b c h; simp [collapseAux] at h
  | cons x rest ih =>
    intro b c h
    by_cases hx : spaceHyphen x
    · rw [show collapseAux b (x :: rest) =
          (if b then [] else ['-']) ++ collapseAux true rest by simp [collapseAux, hx]] at h
      rcases List.mem_append.mp h with h1 | h2
      · left
        rcases b with _ | _ <;> simp_all
      · rcases ih h2 with h3 | h4
        · exact Or.inl h3
        · exact Or.inr ⟨List.mem_cons_of_mem _ h4.1, h4.2⟩
    · rw [show collapseAux b (x :: rest) = x :: collapseAux false rest by
          simp [collapseAux, hx]] at h
      rcases List.mem_cons.mp h with h1 | h2
      · subst h1
        exact Or.inr ⟨List.mem_cons_self _ _, by simpa using hx⟩
      · rcases ih h2 with h3 | h4
        · exact Or.inl h3
        · exact Or.inr ⟨List.mem_cons_of_mem _ h4.1, h4.2⟩

theorem collapseAux_true_head (l : Str) :
    collapseAux true l = [] ∨
      ∃ y R, collapseAux true l = y :: R ∧ spaceHyphen y = false := by
  induction l with
  | nil => exact Or.inl rfl
  | cons x rest ih =>
    simp only [collapseAux]
    by_cases hx : spaceHyphen x
    · simpa [hx] using ih
    · exact Or.inr ⟨x, collapseAux false rest, by simp [hx], by simpa using hx⟩

theorem collapseAux_idem (l : Str) : ∀ b, collapseAux false (collapseAux b l) = collapseAux b l := by
  induction l with
  | nil => intro b; rfl
  | cons x rest ih =>
    intro b
    by_cases hx : spaceHyphen x
    · rcases b with _ | _
      · have he : collapseAux false (x :: rest) = '-' :: collapseAux true rest := by
          simp [collapseAux, hx]
        rw [he]
        have h2 : collapseAux false ('-' :: collapseAux true rest) =
            '-' :: collapseAux true (collapseAux true rest) := by
          simp [collapseAux, spaceHyphen, pyIsSpace]
        rw [h2]
        congr 1
        rcases collapseAux_true_head rest with h0 | hyR
        · rw [h0]; rfl
        · obtain ⟨y, R, hyR, hy⟩ := hyR
          have hIH := ih true
          rw [hyR] at hIH ⊢
          have hstep : ∀ m : Str, collapseAux true (y :: m) = y :: collapseAux false m := by
            intro m; simp [collapseAux, hy]
          have hstep2 : collapseAux false (y :: R) = y :: collapseAux false R := by
            simp [collapseAux, hy]
          rw [hstep2] at hIH
          rw [hstep R]
          exact hIH
      · have he : collapseAux true (x :: rest) = collapseAux true rest := by
          simp [collapseAux, hx]
        rw [he, ih true]
    · have he : collapseAux b (x :: rest) = x :: collapseAux false rest := by
        simp [collapseAux, hx]
      have h2 : collapseAux false (x :: collapseAux false rest) =
          x :: collapseAux false (collapseAux false rest) := by
        simp [collapseAux, hx]
      rw [he, h2, ih false]

theorem map_eq_self_of_fixed {f : Char → Char} {l : Str} (h : ∀ c ∈ l, f c = c) :
    l.map f = l := by
  induction l with
  | nil => rfl
  | cons x rest ih => simp only [List.map_cons, h x (List.mem_cons_self _ _),
      ih (fun c hc => h c (List.mem_cons_of_mem _ hc)), List.cons.injEq, and_self]

/-- C7: slug derivation (lowercase, strip every character that is not a word
character, whitespace or hyphen, then collapse whitespace/hyphen runs into a
single hyphen) is idempotent: slugifying an already-slugified string returns
it unchanged. -/
theorem slugify_idempotent (s : Str) : slugify (slugify s) = slugify s := by
  set m : Str := (s.map pyLower).filter slugKeep with hm
  have hout : slugify s = collapseAux false m := rfl
  have hmemlow : ∀ c ∈ collapseAux false m, pyLower c = c := by
    intro c hc
    rcases collapseAux_mem hc with h1 | ⟨h2, _⟩
    · subst h1; exact pyLower_hyphen
    · have : c ∈ s.map pyLower := List.mem_of_mem_filter h2
      rcases List.mem_map.mp this with ⟨d, _, hd⟩
      rw [← hd]
      exact pyLower_idem d
  have hmemkeep : ∀ c ∈ collapseAux false m, slugKeep c = true := by
    intro c hc
    rcases collapseAux_mem hc with h1 | ⟨h2, _⟩
    · subst h1; decide
    · exact List.of_mem_filter h2
  show collapseAux false (((collapseAux false m).map pyLower).filter slugKeep) = collapseAux false m
  rw [map_eq_self_of_fixed hmemlow, List.filter_eq_self.mpr hmemkeep, collapseAux_idem]

/-- C3 counterexample: two resolved image files with identical byte contents
but different extensions receive different store filenames, refuting the
claim as stated. -/
theorem twoExt_same_bytes_different_names :
    fsBytes fsTwoExt "/a/x.png".data = fsBytes fsTwoExt "/a/y.jpg".data ∧
      generate_image_filename fsTwoExt "/a/x.png".data ≠
        generate_image_filename fsTwoExt "/a/y.jpg".data := by
  constructor
  · decide
  · decide

/-- C3 (amended): the store filename is `md5(bytes).hexdigest()[:8]` followed
by the lowercased extension, so files with identical byte contents and equal
lowercased extensions receive the same store filename. -/
theorem generate_image_filename_content_deterministic :
    (∀ (fs : FileSys) (p : Str),
      generate_image_filename fs p = (md5Hex (fsBytes fs p)).take 8 ++ lowerStr (pathSuffix p)) ∧
    (∀ (fs1 fs2 : FileSys) (p1 p2 : Str), fsBytes fs1 p1 = fsBytes fs2 p2 →
      lowerStr (pathSuffix p1) = lowerStr (pathSuffix p2) →
      generate_image_filename fs1 p1 = generate_image_filename fs2 p2) := by
  refine ⟨fun fs p => rfl, fun fs1 fs2 p1 p2 hb hs => ?_⟩
  unfold generate_image_filename
  rw [hb, hs]

/-- Witness for the amended C3 theorem: two byte-identical files whose
extensions agree up to case get the same store filename. -/
theorem generate_image_filename_content_deterministic_witness :
    generate_image_filename fsSameExt "/a/b.png".data =
      generate_image_filename fsSameExt "/c/d.PNG".data :=
  generate_image_filename_content_deterministic.2 fsSameExt fsSameExt
    "/a/b.png".data "/c/d.PNG".data (by decide) (by decide)

/-- C9: the serialized front-matter block contains the line
`title: '<title>'` with the title inserted verbatim between single quotes and
no escaping applied (so a title containing a single quote is embedded
unescaped). -/
theorem front_matter_title_verbatim (title : Str) (date : PDate) (tags : List Str) :
    ("title: ".data ++ quoteChar :: title ++ [quoteChar, '\n']) <:+:
      generate_jekyll_front_matter title date tags := by
  refine ⟨"---\n".data,
    "date: ".data ++ fmtYMD date ++ ['\n'] ++ "permalink: ".data ++ permalinkOf title date ++
      ['\n'] ++ "tags:\n".data ++ tags.flatMap (fun t => "  - ".data ++ t ++ ['\n']) ++
      "---\n\n".data, ?_⟩
  unfold generate_jekyll_front_matter
  simp only [List.append_assoc]

theorem assocLookup_nil {α : Type} (k : Str) : assocLookup ([] : List (Str × α)) k = none := rfl

theorem assocLookup_cons {α : Type} (e : Str × α) (rest : List (Str × α)) (k : Str) :
    assocLookup (e :: rest) k = if e.1 == k then some e.2 else assocLookup rest k := by
  simp only [assocLookup, List.find?_cons]
  by_cases h : e.1 == k
  · simp [h]
  · simp [h]

theorem beq_str_false {a b : Str} (h : a ≠ b) : (a == b) = false :=
  beq_eq_false_iff_ne.mpr h

theorem assocLookup_map_ne {α : Type} (m : List (Str × α)) (k k' : Str) (v : α)
    (hne : k' ≠ k) :
    assocLookup (m.map (fun e => if e.1 == k then (k, v) else e)) k' = assocLookup m k' := by
  induction m with
  | nil => rfl
  | cons e rest ih =>
    rw [List.map_cons, assocLookup_cons, assocLookup_cons]
    by_cases hek : (e.1 == k) = true
    · have hek' : e.1 = k := beq_iff_eq.mp hek
      have h1 : (e.1 == k') = false := beq_str_false (fun h => hne (by rw [← h, hek']))
      have h2 : ((k, v).1 == k') = false := beq_str_false (fun h => hne h.symm)
      rw [if_pos hek]
      simp only [h2, h1, if_false, Bool.false_eq_true]
      exact ih
    · rw [if_neg hek]
      by_cases he' : (e.1 == k') = true
      · simp [he']
      · simp only [he', if_false, Bool.false_eq_true]
        exact ih

theorem assocLookup_map_self {α : Type} (m : List (Str × α)) (k : Str) (v : α)
    (hin : m.any (·.1 == k)) :
    assocLookup (m.map (fun e => if e.1 == k then (k, v) else e)) k = some v := by
  induction m with
  | nil => simp at hin
  | cons e rest ih =>
    rw [List.map_cons, assocLookup_cons]
    by_cases hek : (e.1 == k) = true
    · simp [hek]
    · simp only [hek, if_false, Bool.false_eq_true]
      simp only [List.any_cons, hek, Bool.false_or] at hin
      exact ih hin

theorem assocLookup_update {α : Type} (m : List (Str × α)) (k k' : Str) (v : α) :
    assocLookup (assocUpdate m k v) k' = if k' = k then some v else assocLookup m k' := by
  by_cases hin : m.any (·.1 == k)
  · have hu : assocUpdate m k v = m.map (fun e => if e.1 == k then (k, v) else e) := by
      simp [assocUpdate, hin]
    rw [hu]
    by_cases hk' : k' = k
    · subst hk'
      rw [if_pos rfl]
      exact assocLookup_map_self m k' v hin
    · rw [if_neg hk']
      exact assocLookup_map_ne m k k' v hk'
  · have hu : assocUpdate m k v = m ++ [(k, v)] := by
      simp only [assocUpdate, hin, if_false, Bool.false_eq_true]
    rw [hu]
    unfold assocLookup
    rw [List.find?_append]
    have hnone : m.find? (fun e => e.1 == k) = none := by
      rw [List.find?_eq_none]
      intro x hx hc
      exact hin (List.any_eq_true.mpr ⟨x, hx, hc⟩)
    by_cases hk' : k' = k
    · subst hk'
      rw [hnone]
      simp [List.find?]
    · have h2 : List.find? (fun e => e.1 == k') [(k, v)] = none := by
        have : (k == k') = false := beq_str_false (fun h => hk' h.symm)
        simp [List.find?, this]
      rw [h2, Option.or_none, if_neg hk']

theorem mem_assocUpdate {α : Type} {m : List (Str × α)} {k : Str} {v : α} {kv : Str × α}
    (h : kv ∈ assocUpdate m k v) : kv ∈ m ∨ kv = (k, v) := by
  unfold assocUpdate at h
  by_cases hin : m.any (·.1 == k)
  · rw [if_pos hin] at h
    rcases List.mem_map.mp h with ⟨e, he, hfe⟩
    by_cases hek : (e.1 == k) = true
    · rw [if_pos hek] at hfe
      exact Or.inr hfe.symm
    · rw [if_neg hek] at hfe
      exact Or.inl (hfe ▸ he)
  · rw [if_neg hin] at h
    rcases List.mem_append.mp h with h1 | h2
    · exact Or.inl h1
    · exact Or.inr (List.mem_singleton.mp h2)

theorem copyFold_mapping (fs : FileSys) (cwd srcDir : Str) :
    ∀ (refs : List Str) (acc : List (Str × Str) × Store) (k : Str),
    assocLookup (refs.foldl (copyStep fs cwd srcDir) acc).1 k =
      if refs.any (fun p => pyUnquote p == k) && !(isRemote k) &&
          (find_image_file fs cwd srcDir k).isSome then
        (find_image_file fs cwd srcDir k).map
          (fun f => "/images/".data ++ generate_image_filename fs f)
      else assocLookup acc.1 k := by
  intro refs
  induction refs with
  | nil => intro acc k; simp
  | cons p rest ih =>
    intro acc k
    rw [List.foldl_cons, ih, List.any_cons]
    by_cases hpk : (pyUnquote p == k) = true
    · have hdk : pyUnquote p = k := beq_iff_eq.mp hpk
      by_cases hrem : isRemote k
      · have hstep : copyStep fs cwd srcDir acc p = acc := by
          unfold copyStep
          rw [hdk, if_pos hrem]
        rw [hstep, hpk]
        simp [hrem]
      · rcases hfind : find_image_file fs cwd srcDir k with _ | f
        · have hstep : copyStep fs cwd srcDir acc p = acc := by
            unfold copyStep
            rw [hdk, if_neg hrem, hfind]
          rw [hstep, hpk]
          simp [hrem, hfind]
        · have hstep : copyStep fs cwd srcDir acc p =
              (assocUpdate acc.1 k ("/images/".data ++ generate_image_filename fs f),
               assocUpdate acc.2 (generate_image_filename fs f) (fsBytes fs f)) := by
            unfold copyStep
            rw [hdk, if_neg hrem, hfind]
          rw [hstep, hpk]
          simp only [Bool.true_or, hrem, Bool.not_false, Bool.true_and, Bool.and_true, hfind,
            Option.isSome_some, Option.map_some]
          by_cases hrest : (rest.any (fun p => pyUnquote p == k)) = true
          · simp [hrest]
          · simp only [hrest, Bool.false_eq_true, if_false, if_true]
            rw [assocLookup_update, if_pos rfl]
            simp
    · have hne : pyUnquote p ≠ k := fun h => hpk (beq_iff_eq.mpr h)
      have hsame : assocLookup (copyStep fs cwd srcDir acc p).1 k = assocLookup acc.1 k := by
        unfold copyStep
        by_cases hrem : isRemote (pyUnquote p)
        · rw [if_pos hrem]
        · rw [if_neg hrem]
          rcases hfind : find_image_file fs cwd srcDir (pyUnquote p) with _ | f
          · rfl
          · simp only
            rw [assocLookup_update, if_neg (fun h => hne h.symm)]
      have hpf : (pyUnquote p == k) = false := by simpa using hpk
      rw [hsame, hpf]
      simp

theorem copyFold_store (fs : FileSys) (cwd srcDir : Str) :
    ∀ (refs : List Str) (acc : List (Str × Str) × Store) (name : Str),
    (assocLookup (refs.foldl (copyStep fs cwd srcDir) acc).2 name).isSome =
      ((assocLookup acc.2 name).isSome ||
        refs.any (fun p => !(isRemote (pyUnquote p)) &&
          ((find_image_file fs cwd srcDir (pyUnquote p)).map (generate_image_filename fs) ==
            some name))) := by
  intro refs
  induction refs with
  | nil => intro acc name; simp
  | cons p rest ih =>
    intro acc name
    rw [List.foldl_cons, ih, List.any_cons]
    by_cases hrem : isRemote (pyUnquote p)
    · have hstep : copyStep fs cwd srcDir acc p = acc := by
        unfold copyStep
        rw [if_pos hrem]
      rw [hstep]
      simp [hrem]
    · rcases hfind : find_image_file fs cwd srcDir (pyUnquote p) with _ | f
      · have hstep : copyStep fs cwd srcDir acc p = acc := by
          unfold copyStep
          rw [if_neg hrem, hfind]
        rw [hstep]
        simp [hfind]
      · have hstep : copyStep fs cwd srcDir acc p =
            (assocUpdate acc.1 (pyUnquote p) ("/images/".data ++ generate_image_filename fs f),
             assocUpdate acc.2 (generate_image_filename fs f) (fsBytes fs f)) := by
          unfold copyStep
          rw [if_neg hrem, hfind]
        rw [hstep]
        simp only [hfind, hrem, Bool.not_false, Bool.true_and, Option.map_some]
        rw [assocLookup_update]
        by_cases hname : name = generate_image_filename fs f
        · rw [if_pos hname]
          have hbeq : (some (generate_image_filename fs f) == some name) = true := by
            rw [hname]
            exact beq_self_eq_true _
          simp [hbeq]
        · rw [if_neg hname]
          have hbeq : (some (generate_image_filename fs f) == some name) = false := by
            simp only [beq_eq_false_iff_ne, ne_eq, Option.some.injEq]
            exact fun h => hname h.symm
          simp [hbeq]

theorem copyFold_mem (fs : FileSys) (cwd srcDir : Str) :
    ∀ (refs : List Str) (acc : List (Str × Str) × Store) (kv : Str × Str),
    kv ∈ (refs.foldl (copyStep fs cwd srcDir) acc).1 →
    kv ∈ acc.1 ∨ ((∃ p ∈ refs, pyUnquote p = kv.1) ∧
      ∃ f, find_image_file fs cwd srcDir kv.1 = some f ∧
        kv.2 = "/images/".data ++ generate_image_filename fs f) := by
  intro refs
  induction refs with
  | nil => intro acc kv h; exact Or.inl h
  | cons p rest ih =>
    intro acc kv h
    rw [List.foldl_cons] at h
    rcases ih _ kv h with h1 | h2
    · unfold copyStep at h1
      by_cases hrem : isRemote (pyUnquote p)
      · rw [if_pos hrem] at h1
        exact Or.inl h1
      · rw [if_neg hrem] at h1
        rcases hfind : find_image_file fs cwd srcDir (pyUnquote p) with _ | f
        · rw [hfind] at h1
          exact Or.inl h1
        · rw [hfind] at h1
          simp only at h1
          rcases mem_assocUpdate h1 with h3 | h4
          · exact Or.inl h3
          · refine Or.inr ⟨⟨p, List.mem_cons_self _ _, ?_⟩, f, ?_, ?_⟩
            · rw [h4]
            · rw [h4, hfind]
            · rw [h4]
    · rcases h2 with ⟨⟨q, hq, hq2⟩, f, hf, hf2⟩
      exact Or.inr ⟨⟨q, List.mem_cons_of_mem _ hq, hq2⟩, f, hf, hf2⟩

/-- C1 counterexample: the reference `pic%201.png` is written with
percent-encoding; its decoded path resolves, its file is copied into the image
store, yet the post-processed text is unchanged and contains no reference
beginning with `/images/` — refuting the claim that every resolving reference
appears post-processing as a store-relative reference. -/
theorem percent_encoded_ref_copied_not_rewritten :
    (foundPaths encContent = ["pic%201.png".data]) ∧
    (find_image_file fsEnc "/cwd".data "/notes".data (pyUnquote "pic%201.png".data)).isSome
      = true ∧
    ((find_and_copy_images fsEnc "/cwd".data "/notes".data [] encContent).2 ≠ []) ∧
    (update_image_paths encContent
      (find_and_copy_images fsEnc "/cwd".data "/notes".data [] encContent).1 = encContent) ∧
    (isSubstr "/images/".data (update_image_paths encContent
      (find_and_copy_images fsEnc "/cwd".data "/notes".data [] encContent).1) = false) :=
  ⟨by decide, by decide, by decide, by decide, by decide⟩

/-- C1 (amended): for every document, a reference is recorded in the old→new
mapping exactly when its percent-decoded path is non-remote and resolves, the
entry is keyed by the decoded path with value `/images/<hash><ext>`, a store
filename is present after processing exactly when it was present before or is
the content-hash name of some resolved reference (so remote and unresolved
references never cause a copy), and every mapping value begins with
`/images/`.  Rewriting substitutes the decoded keys, so a reference whose
as-written path differs from its decoding is copied but left textually
unchanged (see the counterexample). -/
theorem image_pipeline_mapping_store_characterization
    (fs : FileSys) (cwd srcDir : Str) (store : Store) (content : Str) (k name : Str) :
    (assocLookup (find_and_copy_images fs cwd srcDir store content).1 k =
      if (foundPaths content).any (fun p => pyUnquote p == k) && !(isRemote k) &&
          (find_image_file fs cwd srcDir k).isSome then
        (find_image_file fs cwd srcDir k).map
          (fun f => "/images/".data ++ generate_image_filename fs f)
      else none) ∧
    ((assocLookup (find_and_copy_images fs cwd srcDir store content).2 name).isSome =
      ((assocLookup store name).isSome ||
        (foundPaths content).any (fun p => !(isRemote (pyUnquote p)) &&
          ((find_image_file fs cwd srcDir (pyUnquote p)).map (generate_image_filename fs) ==
            some name)))) ∧
    ((find_and_copy_images fs cwd srcDir store content).1.all
      (fun kv => "/images/".data.isPrefixOf kv.2) = true) := by
  refine ⟨?_, ?_, ?_⟩
  · rw [find_and_copy_images, copyFold_mapping]
    rfl
  · rw [find_and_copy_images, copyFold_store]
  · rw [List.all_eq_true]
    intro kv hkv
    rcases copyFold_mem fs cwd srcDir (foundPaths content) ([], store) kv hkv with h1 | h2
    · simp at h1
    · rcases h2 with ⟨_, f, _, hval⟩
      rw [hval]
      exact List.isPrefixOf_iff_prefix.mpr (List.prefix_append _ _)

/-- C5 counterexample: the reference appears in the source text literally as
`pic%201.png`, but the recorded mapping entry is keyed by the percent-decoded
path `pic 1.png`, not by the literal reference string — refuting the claim. -/
theorem mapping_not_keyed_by_literal_reference :
    (foundPaths encContent = ["pic%201.png".data]) ∧
    (assocLookup (find_and_copy_images fsEnc "/cwd".data "/notes".data [] encContent).1
      "pic%201.png".data = none) ∧
    ((assocLookup (find_and_copy_images fsEnc "/cwd".data "/notes".data [] encContent).1
      (pyUnquote "pic%201.png".data)).isSome = true) ∧
    (pyUnquote "pic%201.png".data ≠ "pic%201.png".data) :=
  ⟨by decide, by decide, by decide, by decide⟩

/-- C5 (amended): every entry of the old→new mapping is keyed by the
percent-decoded path of some reference found in the document (equal to the
literal reference string only when that string contains no percent-escapes),
and every found reference whose decoded path is non-remote and resolves has a
mapping entry under its decoded path. -/
theorem image_mapping_keyed_by_decoded_path
    (fs : FileSys) (cwd srcDir : Str) (store : Store) (content : Str) :
    ((find_and_copy_images fs cwd srcDir store content).1.all
      (fun kv => (foundPaths content).any (fun p => pyUnquote p == kv.1)) = true) ∧
    ((foundPaths content).all (fun p =>
      isRemote (pyUnquote p) || (find_image_file fs cwd srcDir (pyUnquote p)).isNone ||
        (assocLookup (find_and_copy_images fs cwd srcDir store content).1
          (pyUnquote p)).isSome) = true) := by
  constructor
  · rw [List.all_eq_true]
    intro kv hkv
    rcases copyFold_mem fs cwd srcDir (foundPaths content) ([], store) kv hkv with h1 | h2
    · simp at h1
    · rcases h2 with ⟨⟨p, hp, hdp⟩, _⟩
      rw [List.any_eq_true]
      exact ⟨p, hp, beq_iff_eq.mpr hdp⟩
  · rw [List.all_eq_true]
    intro p hp
    by_cases hrem : isRemote (pyUnquote p)
    · simp [hrem]
    · rcases hfind : find_image_file fs cwd srcDir (pyUnquote p) with _ | f
      · simp [hfind]
      · have hlook : assocLookup (find_and_copy_images fs cwd srcDir store content).1
            (pyUnquote p) =
            some ("/images/".data ++ generate_image_filename fs f) := by
          rw [find_and_copy_images, copyFold_mapping]
          have hcond : ((foundPaths content).any (fun q => pyUnquote q == pyUnquote p) &&
              !(isRemote (pyUnquote p)) &&
              (find_image_file fs cwd srcDir (pyUnquote p)).isSome) = true := by
            rw [hfind]
            simp only [hrem, Bool.not_false, Option.isSome_some, Bool.and_true]
            rw [List.any_eq_true]
            exact ⟨p, hp, beq_self_eq_true _⟩
          rw [if_pos hcond, hfind]
          rfl
        rw [hlook]
        simp

/-- C2: a document whose read fails is counted as a failure, leaves the world
unchanged and does not abort the batch (the remaining documents are processed
exactly as without it); in particular a batch of one valid and one unreadable
document reports 1 of 2 processed successfully and still writes the valid
document's output file. -/
theorem per_document_failure_contained :
    (∀ (cfg : Config) (w : World) (docs : List Str) (p : Str),
      readDoc w p = none →
      process_directory cfg w (p :: docs) = process_directory cfg w docs) ∧
    ((process_directory cfgFix wBatch ["/n/good.md".data, "/n/bad.md".data]).1 = 1 ∧
     ["/n/good.md".data, "/n/bad.md".data].length = 2 ∧
     (assocLookup (process_directory cfgFix wBatch
        ["/n/good.md".data, "/n/bad.md".data]).2.posts
        "2021-01-01-hello.md".data).isSome = true) := by
  refine ⟨fun cfg w docs p h => ?_, by decide, by decide, by decide⟩
  have hfail : process_markdown_file cfg w p = (false, w) := by
    unfold process_markdown_file
    rw [h]
    rcases fsLookup w.fs p with _ | e <;> rfl
  unfold process_directory
  rw [List.foldl_cons, hfail]
  norm_num

/-- Witness for the universally quantified part of the C2 theorem: the
unreadable document of the fixture batch is skipped without any effect. -/
theorem per_document_failure_contained_witness :
    process_directory cfgFix wBatch ("/n/bad.md".data :: ["/n/good.md".data]) =
      process_directory cfgFix wBatch ["/n/good.md".data] :=
  per_document_failure_contained.1 cfgFix wBatch ["/n/good.md".data] "/n/bad.md".data
    (by decide)

/-- C10: heading detection and image-reference detection are unaware of code
fences: in `fenceContent` the line `# Inside` sits inside a fenced block
before the real heading `# Real`, yet it is returned as the title; the image
reference inside the fence is found, resolved, copied and rewritten to a
`/images/` path. -/
theorem fences_not_parsed_for_title_or_images :
    (extract_title_from_content fenceContent false [] = "Inside".data) ∧
    (foundPaths fenceContent = ["code.png".data]) ∧
    ((find_and_copy_images fsFence "/cwd".data "/n".data [] fenceContent).1 ≠ []) ∧
    ((find_and_copy_images fsFence "/cwd".data "/n".data [] fenceContent).2 ≠ []) ∧
    (isSubstr "](/images/".data (update_image_paths fenceContent
      (find_and_copy_images fsFence "/cwd".data "/n".data [] fenceContent).1) = true) :=
  ⟨by decide, by decide, by decide, by decide, by decide⟩

theorem mem_insertDesc {x y : Str × Nat} {l : List (Str × Nat)}
    (h : x ∈ insertDesc y l) : x = y ∨ x ∈ l := by
  induction l with
  | nil => simpa [insertDesc] using h
  | cons z rest ih =>
    unfold insertDesc at h
    by_cases hc : y.2 ≤ z.2
    · rw [if_pos hc] at h
      rcases List.mem_cons.mp h with h1 | h2
      · exact Or.inr (h1 ▸ List.mem_cons_self _ _)
      · rcases ih h2 with h3 | h4
        · exact Or.inl h3
        · exact Or.inr (List.mem_cons_of_mem _ h4)
    · rw [if_neg hc] at h
      rcases List.mem_cons.mp h with h1 | h2
      · exact Or.inl h1
      · exact Or.inr h2

theorem mem_foldl_insertDesc {x : Str × Nat} :
    ∀ {l : List (Str × Nat)} {acc : List (Str × Nat)},
    x ∈ l.foldl (fun acc y => insertDesc y acc) acc → x ∈ acc ∨ x ∈ l := by
  intro l
  induction l with
  | nil => intro acc h; exact Or.inl h
  | cons y rest ih =>
    intro acc h
    rw [List.foldl_cons] at h
    rcases ih h with h1 | h2
    · rcases mem_insertDesc h1 with h3 | h4
      · exact Or.inr (h3 ▸ List.mem_cons_self _ _)
      · exact Or.inl h4
    · exact Or.inr (List.mem_cons_of_mem _ h2)

theorem mem_dedupAux {t : Str} :
    ∀ {ws : List Str} {seen : List Str}, t ∈ dedupAux seen ws → t ∈ ws := by
  intro ws
  induction ws with
  | nil => intro seen h; simp [dedupAux] at h
  | cons w rest ih =>
    intro seen h
    unfold dedupAux at h
    by_cases hc : seen.contains w
    · rw [if_pos hc] at h
      exact List.mem_cons_of_mem _ (ih h)
    · rw [if_neg hc] at h
      rcases List.mem_cons.mp h with h1 | h2
      · exact h1 ▸ List.mem_cons_self _ _
      · exact List.mem_cons_of_mem _ (ih h2)

theorem mem_englishWordsAux {t : Str} :
    ∀ {s : Str} {b : Bool}, t ∈ englishWordsAux b s → 3 ≤ t.length := by
  intro s
  induction s with
  | nil => intro b h; simp [englishWordsAux] at h
  | cons c rest ih =>
    intro b h
    unfold englishWordsAux at h
    by_cases hc : (pyIsAlpha c && !b) = true
    · rw [if_pos hc] at h
      rcases List.mem_append.mp h with h1 | h2
      · by_cases hlen : (3 ≤ ((c :: rest).takeWhile pyIsAlpha).length &&
            (match ((c :: rest).dropWhile pyIsAlpha).head? with
             | some d => !(pyIsWord d)
             | none => true)) = true
        · rw [if_pos hlen] at h1
          rcases List.mem_singleton.mp h1 with h3
          rw [h3]
          exact of_decide_eq_true ((Bool.and_eq_true _ _).mp hlen).1
        · rw [if_neg hlen] at h1
          simp at h1
      · exact ih h2
    · rw [if_neg hc] at h
      exact ih h

theorem mem_mostCommon_words {t : Str} {ws : List Str} {n : Nat}
    (h : t ∈ (most_common ws n).map (·.1)) : t ∈ ws := by
  rcases List.mem_map.mp h with ⟨e, he, hfst⟩
  have he2 : e ∈ ((dedupFirst ws).map (fun w => (w, countOcc w ws))).foldl
      (fun acc x => insertDesc x acc) [] := List.mem_of_mem_take he
  rcases mem_foldl_insertDesc he2 with h1 | h2
  · simp at h1
  · rcases List.mem_map.mp h2 with ⟨w, hw, hwe⟩
    have : e.1 = w := by rw [← hwe]
    rw [← hfst, this]
    exact mem_dedupAux hw

/-- C8: tag extraction returns at most `max_tags` tags (the call sites use the
default 5), never returns a tag of length 1 or 0, and a failure of the
language-aware keyword extractor is never propagated: with a failing
extractor the result is exactly the frequency fallback over alphabetic words
of length at least 3 of the cleaned, lowercased content. -/
theorem extract_tags_bounded_and_fallback :
    (∀ (jieba : Str → Nat → Option (List Str)) (content : Str) (maxTags : Nat),
      (extract_tags_from_content jieba content maxTags).length ≤ maxTags) ∧
    (∀ (jieba : Str → Nat → Option (List Str)) (content : Str) (maxTags : Nat),
      (extract_tags_from_content jieba content maxTags).all (fun t => 1 < t.length) = true) ∧
    (∀ (content : Str) (maxTags : Nat),
      extract_tags_from_content (fun _ _ => none) content maxTags =
        fallbackTags (cleanForTags content) maxTags) := by
  refine ⟨fun jieba content maxTags => ?_, fun jieba content maxTags => ?_,
    fun content maxTags => rfl⟩
  · unfold extract_tags_from_content
    rcases hj : jieba (cleanForTags content) maxTags with _ | kws
    · simp only [hj, fallbackTags, most_common, List.length_map]
      exact List.length_take_le _ _
    · simp only [hj]
      simp only [List.length_take, inf_le_left]
  · rw [List.all_eq_true]
    intro t ht
    unfold extract_tags_from_content at ht
    rcases hj : jieba (cleanForTags content) maxTags with _ | kws
    · simp only [hj] at ht
      have hw : t ∈ englishWords (lowerStr (cleanForTags content)) :=
        mem_mostCommon_words ht
      have h3 : 3 ≤ t.length := mem_englishWordsAux hw
      simpa using Nat.lt_of_lt_of_le (by omega) h3
    · simp only [hj] at ht
      have := List.mem_of_mem_take ht
      have hf := List.of_mem_filter this
      simpa using hf

theorem dropWhile_length_le {α : Type} (p : α → Bool) (l : List α) :
    (l.dropWhile p).length ≤ l.length := by
  induction l with
  | nil => simp
  | cons x rest ih =>
    rw [List.dropWhile_cons]
    by_cases h : p x
    · simp only [h, if_true]
      exact Nat.le_succ_of_le ih
    · simp [h]

theorem mdSubStep_some_length {old : Str} {s : Str} {alt rem : Str}
    (h : mdSubStep old s = some (alt, rem)) : rem.length < s.length := by
  unfold mdSubStep at h
  split at h
  · rename_i t
    split at h
    · rename_i t2 heq
      have hdl : (t.dropWhile (· ≠ ']')).length ≤ t.length := dropWhile_length_le _ _
      rw [heq] at hdl
      simp only [List.length_cons] at hdl
      split at h
      · split at h
        · rename_i rem2 heq2
          have hdrop : (t2.drop old.length).length ≤ t2.length := by
            simp [List.length_drop]
          rw [heq2] at hdrop
          simp only [List.length_cons] at hdrop
          rcases h with ⟨rfl, rfl⟩
          simp only [List.length_cons]
          omega
        · exact absurd h (by simp)
      · exact absurd h (by simp)
    · exact absurd h (by simp)
  · exact absurd h (by simp)

theorem htmlSubCheckAt_some_length {old t : Str} {k : Nat} {r : Str × Str} {rem : Str}
    (h : htmlSubCheckAt old t k = some (r, rem)) : rem.length < t.length := by
  unfold htmlSubCheckAt at h
  split at h
  · rename_i q u2 heq
    have h5 : (t.drop k).length ≤ t.length := by simp [List.length_drop]
    rw [heq] at h5
    simp only [List.length_cons] at h5
    split at h
    · split at h
      · split at h
        · rename_i q2 u3 heq2
          have h1 : (u2.drop old.length).length ≤ u2.length := by simp [List.length_drop]
          rw [heq2] at h1
          simp only [List.length_cons] at h1
          split at h
          · split at h
            · rename_i rem2 heq3
              have h2 : (u3.dropWhile (· ≠ '>')).length ≤ u3.length := dropWhile_length_le _ _
              rw [heq3] at h2
              simp only [List.length_cons] at h2
              rcases h with ⟨rfl, rfl⟩
              omega
            · exact absurd h (by simp)
          · exact absurd h (by simp)
        · exact absurd h (by simp)
      · exact absurd h (by simp)
    · exact absurd h (by simp)
  · exact absurd h (by simp)

theorem htmlSubTryK_some_length {old t : Str} {r : Str × Str} {rem : Str} :
    ∀ {k : Nat}, htmlSubTryK old t k = some (r, rem) → rem.length < t.length := by
  intro k
  induction k with
  | zero => intro h; exact absurd h (by simp [htmlSubTryK])
  | succ k ih =>
    intro h
    unfold htmlSubTryK at h
    split at h
    · rename_i r2 heq
      rcases h with ⟨rfl⟩
      exact htmlSubCheckAt_some_length heq
    · exact ih h

theorem htmlSubStep_some_length {old s : Str} {r : Str × Str} {rem : Str}
    (h : htmlSubStep old s = some (r, rem)) : rem.length < s.length := by
  unfold htmlSubStep at h
  split at h
  · rename_i t
    have := htmlSubTryK_some_length h
    simp only [List.length_cons]
    omega
  · exact absurd h (by simp)

theorem mdSubFuel_fuel_irrelevant (old new : Str) :
    ∀ (f1 : Nat) (s : Str) (f2 : Nat), s.length ≤ f1 → s.length ≤ f2 →
    mdSubFuel old new f1 s = mdSubFuel old new f2 s := by
  intro f1
  induction f1 with
  | zero =>
    intro s f2 h1 h2
    have : s = [] := List.length_eq_zero.mp (Nat.le_zero.mp h1)
    subst this
    cases f2 <;> rfl
  | succ f ih =>
    intro s f2 h1 h2
    cases s with
    | nil => cases f2 <;> rfl
    | cons c rest =>
      rcases f2 with _ | f2'
      · simp at h2
      · show mdSubFuel old new (f + 1) (c :: rest) = mdSubFuel old new (f2' + 1) (c :: rest)
        unfold mdSubFuel
        rcases hstep : mdSubStep old (c :: rest) with _ | ⟨alt, rem⟩
        · simp only [List.length_cons] at h1 h2
          rw [ih rest f2' (by omega) (by omega)]
        · have hlen := mdSubStep_some_length hstep
          simp only [List.length_cons] at h1 h2 hlen
          dsimp only
          rw [ih rem f2' (by omega) (by omega)]

theorem htmlSubFuel_fuel_irrelevant (old new : Str) :
    ∀ (f1 : Nat) (s : Str) (f2 : Nat), s.length ≤ f1 → s.length ≤ f2 →
    htmlSubFuel old new f1 s = htmlSubFuel old new f2 s := by
  intro f1
  induction f1 with
  | zero =>
    intro s f2 h1 h2
    have : s = [] := List.length_eq_zero.mp (Nat.le_zero.mp h1)
    subst this
    cases f2 <;> rfl
  | succ f ih =>
    intro s f2 h1 h2
    cases s with
    | nil => cases f2 <;> rfl
    | cons c rest =>
      rcases f2 with _ | f2'
      · simp at h2
      · show htmlSubFuel old new (f + 1) (c :: rest) = htmlSubFuel old new (f2' + 1) (c :: rest)
        unfold htmlSubFuel
        rcases hstep : htmlSubStep old (c :: rest) with _ | ⟨⟨a1, a2⟩, rem⟩
        · simp only [List.length_cons] at h1 h2
          rw [ih rest f2' (by omega) (by omega)]
        · have hlen := htmlSubStep_some_length hstep
          simp only [List.length_cons] at h1 h2 hlen
          dsimp only
          rw [ih rem f2' (by omega) (by omega)]

theorem takeWhile_append_stop {p : Char → Bool} {pre : Str} (hpre : ∀ c ∈ pre, p c = true)
    {c : Char} (hc : p c = false) (post : Str) :
    (pre ++ c :: post).takeWhile p = pre := by
  induction pre with
  | nil => simp [List.takeWhile_cons, hc]
  | cons x xs ih =>
    rw [List.cons_append, List.takeWhile_cons, hpre x (List.mem_cons_self _ _)]
    simp only [if_true]
    rw [ih (fun d hd => hpre d (List.mem_cons_of_mem _ hd))]

theorem dropWhile_append_stop {p : Char → Bool} {pre : Str} (hpre : ∀ c ∈ pre, p c = true)
    {c : Char} (hc : p c = false) (post : Str) :
    (pre ++ c :: post).dropWhile p = c :: post := by
  induction pre with
  | nil => simp [List.dropWhile_cons, hc]
  | cons x xs ih =>
    rw [List.cons_append, List.dropWhile_cons, hpre x (List.mem_cons_self _ _)]
    exact ih (fun d hd => hpre d (List.mem_cons_of_mem _ hd))

theorem mdSubStep_nil (old : Str) : mdSubStep old [] = none := rfl

theorem mdSubStep_head_ne {old : Str} {c : Char} (t : Str) (hc : c ≠ '!') :
    mdSubStep old (c :: t) = none := by
  unfold mdSubStep
  split
  · rename_i h
    exact absurd (List.cons.inj h).1 hc
  · rfl

theorem mdSub_nil (old new : Str) : mdSub old new [] = [] := rfl

theorem mdSub_cons_none {old : Str} {c : Char} {rest : Str} (new : Str)
    (h : mdSubStep old (c :: rest) = none) :
    mdSub old new (c :: rest) = c :: mdSub old new rest := by
  show mdSubFuel old new (rest.length + 1) (c :: rest) = _
  unfold mdSubFuel
  rw [h]
  rfl

theorem mdSub_cons_some {old : Str} {s alt rem : Str} (new : Str)
    (h : mdSubStep old s = some (alt, rem)) :
    mdSub old new s = '!' :: '[' :: alt ++ ']' :: '(' :: new ++ ')' :: mdSub old new rem := by
  cases s with
  | nil => rw [mdSubStep_nil] at h; cases h
  | cons c rest =>
    show mdSubFuel old new (rest.length + 1) (c :: rest) = _
    unfold mdSubFuel
    rw [h]
    dsimp only
    have hlen := mdSubStep_some_length h
    simp only [List.length_cons] at hlen
    rw [mdSubFuel_fuel_irrelevant old new rest.length rem rem.length (by omega) (le_refl _)]
    rfl

theorem mdSub_append_inert {old : Str} (new : Str) :
    ∀ (sep : Str), (∀ c ∈ sep, c ≠ '!') → ∀ (rest : Str),
    mdSub old new (sep ++ rest) = sep ++ mdSub old new rest := by
  intro sep
  induction sep with
  | nil => intro _ rest; rfl
  | cons c xs ih =>
    intro hs rest
    rw [List.cons_append,
      mdSub_cons_none new (mdSubStep_head_ne _ (hs c (List.mem_cons_self _ _))),
      ih (fun d hd => hs d (List.mem_cons_of_mem _ hd)) rest, List.cons_append]

theorem mdSubStep_at_ref (old : Str) {alt : Str} (T : Str) (halt : ']' ∉ alt) :
    mdSubStep old ('!' :: '[' :: (alt ++ ']' :: '(' :: (old ++ ')' :: T))) = some (alt, T) := by
  simp only [mdSubStep]
  have hpre : ∀ c ∈ alt, (decide (c ≠ ']')) = true := by
    intro c hc
    simp only [decide_eq_true_eq]
    exact fun h => halt (h ▸ hc)
  have h1 : (alt ++ ']' :: '(' :: (old ++ ')' :: T)).takeWhile (· ≠ ']') = alt :=
    takeWhile_append_stop hpre (by simp) _
  have h2 : (alt ++ ']' :: '(' :: (old ++ ')' :: T)).dropWhile (· ≠ ']') =
      ']' :: '(' :: (old ++ ')' :: T) :=
    dropWhile_append_stop hpre (by simp) _
  rw [h1, h2]
  have h3 : old.isPrefixOf (old ++ ')' :: T) = true :=
    List.isPrefixOf_iff_prefix.mpr (List.prefix_append _ _)
  split
  · rename_i t2 heq
    have ht2 : t2 = old ++ ')' :: T := by
      injection heq with e1 e2
      injection e2 with e3 e4
      exact e4.symm
    subst ht2
    rw [if_pos h3, List.drop_left]
    rfl
  · rename_i hcontra
    exact (hcontra (old ++ ')' :: T) rfl).elim

theorem drop_append_length_add {α : Type} (l1 l2 : List α) (i : Nat) :
    (l1 ++ l2).drop (l1.length + i) = l2.drop i := by
  induction l1 with
  | nil => simp
  | cons x xs ih =>
    have harith : (x :: xs).length + i = (xs.length + i) + 1 := by
      simp only [List.length_cons]
      omega
    rw [harith, List.cons_append, List.drop_succ_cons]
    exact ih

theorem drop_append_le {α : Type} (l1 l2 : List α) :
    ∀ (i : Nat), i ≤ l1.length → (l1 ++ l2).drop i = l1.drop i ++ l2 := by
  induction l1 with
  | nil =>
    intro i hi
    simp at hi
    subst hi
    simp
  | cons x xs ih =>
    intro i hi
    cases i with
    | zero => simp
    | succ i' =>
      simp only [List.cons_append, List.drop_succ_cons]
      exact ih i' (by simpa using hi)

theorem pat4_ne {l : Str} (hl : '=' ∉ l) {j : Nat} (tail : Str) :
    ∀ q u2, l.drop j ++ '>' :: tail ≠ 's' :: 'r' :: 'c' :: '=' :: q :: u2 := by
  intro q u2 heq
  rcases hd : l.drop j with _ | ⟨c1, r1⟩
  · rw [hd] at heq
    simp at heq
  · rcases r1 with _ | ⟨c2, r2⟩
    · rw [hd] at heq
      simp at heq
    · rcases r2 with _ | ⟨c3, r3⟩
      · rw [hd] at heq
        simp at heq
      · rcases r3 with _ | ⟨c4, r4⟩
        · rw [hd] at heq
          simp at heq
        · rw [hd] at heq
          have h4 : c4 = '=' := by
            simp only [List.cons_append, List.cons.injEq] at heq
            exact heq.2.2.2.1
          have hmem : c4 ∈ l.drop j := by
            rw [hd]
            exact List.mem_cons_of_mem _ (List.mem_cons_of_mem _
              (List.mem_cons_of_mem _ (List.mem_cons_self _ _)))
          exact hl (h4 ▸ List.mem_of_mem_drop hmem)

theorem htmlSubCheckAt_none {old t : Str} {k : Nat}
    (h : ∀ q u2, t.drop k ≠ 's' :: 'r' :: 'c' :: '=' :: q :: u2) :
    htmlSubCheckAt old t k = none := by
  unfold htmlSubCheckAt
  split
  · rename_i q u2 heq
    exact absurd heq (h q u2)
  · rfl

theorem htmlSubTryK_descend {old t : Str} (base : Nat) :
    ∀ (j : Nat), (∀ i, 1 ≤ i → i ≤ j → htmlSubCheckAt old t (base + i) = none) →
    htmlSubTryK old t (base + j) = htmlSubTryK old t base := by
  intro j
  induction j with
  | zero => intro _; rfl
  | succ j ih =>
    intro hfail
    have hstep : htmlSubTryK old t ((base + j) + 1) =
        match htmlSubCheckAt old t ((base + j) + 1) with
        | some r => some r
        | none => htmlSubTryK old t (base + j) := rfl
    show htmlSubTryK old t ((base + j) + 1) = htmlSubTryK old t base
    have hf : htmlSubCheckAt old t (base + j + 1) = none := hfail (j + 1) (by omega) (le_refl _)
    rw [hstep, hf]
    exact ih (fun i h1 h2 => hfail i h1 (by omega))

theorem htmlSubStep_nil (old : Str) : htmlSubStep old [] = none := rfl

theorem htmlSubStep_head_ne {old : Str} {c : Char} (t : Str) (hc : c ≠ '<') :
    htmlSubStep old (c :: t) = none := by
  unfold htmlSubStep
  split
  · rename_i h
    exact absurd (List.cons.inj h).1 hc
  · rfl

theorem htmlSub_cons_none {old : Str} {c : Char} {rest : Str} (new : Str)
    (h : htmlSubStep old (c :: rest) = none) :
    htmlSub old new (c :: rest) = c :: htmlSub old new rest := by
  show htmlSubFuel old new (rest.length + 1) (c :: rest) = _
  unfold htmlSubFuel
  rw [h]
  rfl

theorem htmlSub_cons_some {old : Str} {s a1 a2 rem : Str} (new : Str)
    (h : htmlSubStep old s = some ((a1, a2), rem)) :
    htmlSub old new s = '<' :: 'i' :: 'm' :: 'g' :: a1 ++ 's' :: 'r' :: 'c' :: '=' :: '"' ::
      new ++ '"' :: a2 ++ '>' :: htmlSub old new rem := by
  cases s with
  | nil => rw [htmlSubStep_nil] at h; cases h
  | cons c rest =>
    show htmlSubFuel old new (rest.length + 1) (c :: rest) = _
    unfold htmlSubFuel
    rw [h]
    dsimp only
    have hlen := htmlSubStep_some_length h
    simp only [List.length_cons] at hlen
    rw [htmlSubFuel_fuel_irrelevant old new rest.length rem rem.length (by omega) (le_refl _)]
    rfl

theorem htmlSub_append_inert {old : Str} (new : Str) :
    ∀ (sep : Str), (∀ c ∈ sep, c ≠ '<') → ∀ (rest : Str),
    htmlSub old new (sep ++ rest) = sep ++ htmlSub old new rest := by
  intro sep
  induction sep with
  | nil => intro _ rest; rfl
  | cons c xs ih =>
    intro hs rest
    rw [List.cons_append,
      htmlSub_cons_none new (htmlSubStep_head_ne _ (hs c (List.mem_cons_self _ _))),
      ih (fun d hd => hs d (List.mem_cons_of_mem _ hd)) rest, List.cons_append]

theorem isQuote_ne_s {q : Char} (h : isQuote q = true) : q ≠ 's' := by
  rcases Bool.or_eq_true _ _ |>.mp h with h1 | h1
  · intro hc
    rw [hc] at h1
    exact absurd h1 (by decide)
  · intro hc
    rw [hc] at h1
    exact absurd h1 (by decide)

theorem isQuote_ne_gt {q : Char} (h : isQuote q = true) : q ≠ '>' := by
  rcases Bool.or_eq_true _ _ |>.mp h with h1 | h1
  · intro hc
    rw [hc] at h1
    exact absurd h1 (by decide)
  · intro hc
    rw [hc] at h1
    exact absurd h1 (by decide)

theorem isQuote_ne_eq {q : Char} (h : isQuote q = true) : q ≠ '=' := by
  rcases Bool.or_eq_true _ _ |>.mp h with h1 | h1
  · intro hc
    rw [hc] at h1
    exact absurd h1 (by decide)
  · intro hc
    rw [hc] at h1
    exact absurd h1 (by decide)

theorem htmlSubStep_at_ref (old : Str) {a1 a2 : Str} {q1 q2 : Char} (T : Str)
    (ha1ne : a1 ≠ []) (hq1 : isQuote q1 = true) (hq2 : isQuote q2 = true)
    (ha1 : '>' ∉ a1) (ha2 : '>' ∉ a2) (hogt : '>' ∉ old)
    (hea2 : '=' ∉ a2) (heold : '=' ∉ old) :
    htmlSubStep old
      ('<' :: 'i' :: 'm' :: 'g' ::
        (a1 ++ 's' :: 'r' :: 'c' :: '=' :: q1 :: (old ++ q2 :: (a2 ++ '>' :: T)))) =
      some ((a1, a2), T) := by
  set R : Str := 's' :: 'r' :: 'c' :: '=' :: q1 :: (old ++ q2 :: a2) with hR
  set t : Str := a1 ++ 's' :: 'r' :: 'c' :: '=' :: q1 :: (old ++ q2 :: (a2 ++ '>' :: T)) with ht
  have hshape : t = (a1 ++ R) ++ '>' :: T := by
    rw [ht, hR]
    simp only [List.append_assoc, List.cons_append]
  have hstep : htmlSubStep old ('<' :: 'i' :: 'm' :: 'g' :: t) =
      htmlSubTryK old t (t.takeWhile (· ≠ '>')).length := by
    simp only [htmlSubStep]
  rw [hstep]
  have hpreR : ∀ c ∈ a1 ++ R, (decide (c ≠ '>')) = true := by
    intro c hc
    simp only [decide_eq_true_eq]
    rcases List.mem_append.mp hc with h1 | h2
    · exact fun hgt => ha1 (hgt ▸ h1)
    · rw [hR] at h2
      simp only [List.mem_cons, List.mem_append] at h2
      rcases h2 with rfl | rfl | rfl | rfl | rfl | h5 | rfl | h7
      · simp
      · simp
      · simp
      · simp
      · exact isQuote_ne_gt hq1
      · exact fun hgt => hogt (hgt ▸ h5)
      · exact isQuote_ne_gt hq2
      · exact fun hgt => ha2 (hgt ▸ h7)
  have hkmax : (t.takeWhile (· ≠ '>')).length = (a1 ++ R).length := by
    rw [hshape, takeWhile_append_stop hpreR (by simp) T]
  rw [hkmax]
  have hlenR : (a1 ++ R).length = a1.length + (6 + old.length + a2.length) := by
    rw [hR]
    simp only [List.length_append, List.length_cons]
    omega
  rw [hlenR]
  have hdropfar : ∀ i, 1 ≤ i → i ≤ 6 + old.length + a2.length →
      htmlSubCheckAt old t (a1.length + i) = none := by
    intro i h1 h6
    apply htmlSubCheckAt_none
    intro q u2
    have hRlen : R.length = 5 + (old.length + 1 + a2.length) := by
      rw [hR]
      simp only [List.length_cons, List.length_append]
      omega
    have hdrop1 : t.drop (a1.length + i) = R.drop i ++ '>' :: T := by
      rw [hshape, List.append_assoc, drop_append_length_add a1 (R ++ '>' :: T) i,
        drop_append_le R ('>' :: T) i (by omega)]
    rw [hdrop1]
    rcases hi : i with _ | _ | _ | _ | _ | i5
    · omega
    · rw [hR]
      intro heq
      simp at heq
    · rw [hR]
      intro heq
      simp at heq
    · rw [hR]
      intro heq
      simp at heq
    · rw [hR]
      intro heq
      simp only [List.drop_succ_cons, List.drop_zero, List.cons_append, List.cons.injEq] at heq
      exact absurd heq.1 (isQuote_ne_s hq1)
    · have hdropR : R.drop (i5 + 5) = (old ++ q2 :: a2).drop i5 := by
        rw [hR]
        simp only [List.drop_succ_cons]
      rw [hdropR]
      have hnoeq : '=' ∉ (old ++ q2 :: a2) := by
        intro hmem
        rcases List.mem_append.mp hmem with h1 | h2
        · exact heold h1
        · simp only [List.mem_cons] at h2
          rcases h2 with h3 | h3
          · exact absurd h3.symm (isQuote_ne_eq hq2)
          · exact hea2 h3
      exact pat4_ne hnoeq T q u2
  have hdesc := htmlSubTryK_descend a1.length (6 + old.length + a2.length) hdropfar
  rw [hdesc]
  rcases ha1shape : a1 with _ | ⟨c1, a1'⟩
  · exact absurd ha1shape ha1ne
  · have hbase : htmlSubTryK old t (a1'.length + 1) =
        match htmlSubCheckAt old t (a1'.length + 1) with
        | some r => some r
        | none => htmlSubTryK old t a1'.length := rfl
    have hlen1 : a1.length = a1'.length + 1 := by rw [ha1shape]; rfl
    rw [← ha1shape]
    rw [hlen1, hbase]
    have hcheck : htmlSubCheckAt old t (a1'.length + 1) = some ((a1, a2), T) := by
      unfold htmlSubCheckAt
      have hdropA : t.drop (a1'.length + 1) =
          's' :: 'r' :: 'c' :: '=' :: q1 :: (old ++ q2 :: (a2 ++ '>' :: T)) := by
        rw [hshape, ← hlen1, List.append_assoc, ← Nat.add_zero a1.length,
          drop_append_length_add a1 (R ++ '>' :: T) 0, List.drop_zero, hR]
        simp only [List.cons_append, List.append_assoc]
      rw [hdropA]
      split
      · rename_i q u2 heq
        simp only [List.cons.injEq] at heq
        obtain ⟨-, -, -, -, hqq, hu2⟩ := heq
        rw [← hqq, if_pos hq1, ← hu2]
        have hpref : old.isPrefixOf (old ++ q2 :: (a2 ++ '>' :: T)) = true :=
          List.isPrefixOf_iff_prefix.mpr (List.prefix_append _ _)
        rw [if_pos hpref, List.drop_left]
        split
        · rename_i q2' u3 heq2
          simp only [List.cons.injEq] at heq2
          obtain ⟨hq2q, hu3⟩ := heq2
          rw [← hq2q, if_pos hq2, ← hu3]
          have hpa2 : ∀ c ∈ a2, (decide (c ≠ '>')) = true := by
            intro c hc
            simp only [decide_eq_true_eq]
            exact fun hgt => ha2 (hgt ▸ hc)
          rw [dropWhile_append_stop hpa2 (by simp) T]
          have htake : t.take (a1'.length + 1) = a1 := by
            rw [hshape, List.append_assoc, ← hlen1, List.take_left]
          rw [htake, takeWhile_append_stop hpa2 (by simp) T]
          rfl
        · rename_i hcontra
          exact absurd hcontra (by simp)
      · rename_i hcontra
        exact (hcontra q1 (old ++ q2 :: (a2 ++ '>' :: T)) rfl).elim
    rw [hcheck]

theorem quote_ne_bang {q : Char} (h : isQuote q = true) : q ≠ '!' := by
  rcases Bool.or_eq_true _ _ |>.mp h with h1 | h1 <;>
    · intro hc
      rw [hc] at h1
      exact absurd h1 (by decide)

theorem quote_ne_lt {q : Char} (h : isQuote q = true) : q ≠ '<' := by
  rcases Bool.or_eq_true _ _ |>.mp h with h1 | h1 <;>
    · intro hc
      rw [hc] at h1
      exact absurd h1 (by decide)

theorem bang_not_in_renderHtml {old : Str} {a1 a2 : Str} {q1 q2 : Char}
    (hs : shapeOk (RefShape.html a1 a2 q1 q2)) (hb : '!' ∉ old) :
    ∀ c ∈ renderOld old (RefShape.html a1 a2 q1 q2), c ≠ '!' := by
  intro c hc he
  subst he
  obtain ⟨-, hq1, hq2, -, -, hb1, hb2, -, -, -⟩ := hs
  have n1 : q1 ≠ '!' := quote_ne_bang hq1
  have n2 : q2 ≠ '!' := quote_ne_bang hq2
  simp only [renderOld, List.mem_cons, List.mem_append, List.mem_singleton] at hc
  casesm* _ ∨ _ <;> rename_i hq <;>
    first
    | exact n1 hq.symm
    | exact n2 hq.symm
    | simp_all

theorem mdSub_buildDoc (old new : Str) (hpair : pairOk old new) :
    ∀ (parts : List (RefShape × Str)), (∀ pr ∈ parts, shapeOk pr.1 ∧ sepOk pr.2) →
    ∀ (sep0 : Str), sepOk sep0 →
    mdSub old new (buildDoc (renderOld old) sep0 parts) =
      buildDoc (fun r => match r with
        | RefShape.md alt => renderNew new (RefShape.md alt)
        | RefShape.html a1 a2 q1 q2 => renderOld old (RefShape.html a1 a2 q1 q2)) sep0 parts := by
  intro parts
  induction parts with
  | nil =>
    intro _ sep0 hsep
    simp only [buildDoc, List.flatMap_nil, List.append_nil]
    have h := @mdSub_append_inert old new sep0 (fun c hc he => hsep.1 (he ▸ hc)) []
    rw [List.append_nil] at h
    rw [h, mdSub_nil, List.append_nil]
  | cons pr rest ih =>
    intro hparts sep0 hsep
    obtain ⟨r, sep⟩ := pr
    have hr := (hparts (r, sep) (List.mem_cons_self _ _)).1
    have hsep2 := (hparts (r, sep) (List.mem_cons_self _ _)).2
    have hIH := ih (fun q hq => hparts q (List.mem_cons_of_mem _ hq)) sep hsep2
    simp only [buildDoc] at hIH ⊢
    simp only [List.flatMap_cons]
    rw [@mdSub_append_inert old new sep0 (fun c hc he => hsep.1 (he ▸ hc))]
    rcases r with alt | ⟨a1, a2, q1, q2⟩
    · have hY : (renderOld old (RefShape.md alt) ++ sep) ++
          rest.flatMap (fun q => renderOld old q.1 ++ q.2) =
          '!' :: '[' :: (alt ++ ']' :: '(' ::
            (old ++ ')' :: (sep ++ rest.flatMap (fun q => renderOld old q.1 ++ q.2)))) := by
        simp only [renderOld, List.cons_append, List.append_assoc, List.singleton_append,
          List.nil_append]
      rw [hY, mdSub_cons_some new (mdSubStep_at_ref old _ hr.1), hIH]
      simp only [renderNew, List.cons_append, List.append_assoc, List.singleton_append,
        List.nil_append]
    · have hinert := @mdSub_append_inert old new
        (renderOld old (RefShape.html a1 a2 q1 q2))
        (bang_not_in_renderHtml hr hpair.2.2.2.2.1)
        (sep ++ rest.flatMap (fun q => renderOld old q.1 ++ q.2))
      rw [List.append_assoc, hinert, hIH]
      simp only [List.append_assoc]

theorem lt_not_in_renderNewMd {new alt : Str} (ha : '<' ∉ alt) (hn : '<' ∉ new) :
    ∀ c ∈ renderNew new (RefShape.md alt), c ≠ '<' := by
  intro c hc he
  subst he
  simp only [renderNew, List.mem_cons, List.mem_append, List.mem_singleton] at hc
  casesm* _ ∨ _ <;> simp_all

theorem htmlSub_buildDoc (old new : Str) (hpair : pairOk old new) :
    ∀ (parts : List (RefShape × Str)), (∀ pr ∈ parts, shapeOk pr.1 ∧ sepOk pr.2) →
    ∀ (sep0 : Str), sepOk sep0 →
    htmlSub old new (buildDoc (fun r => match r with
        | RefShape.md alt => renderNew new (RefShape.md alt)
        | RefShape.html a1 a2 q1 q2 => renderOld old (RefShape.html a1 a2 q1 q2)) sep0 parts) =
      buildDoc (renderNew new) sep0 parts := by
  intro parts
  induction parts with
  | nil =>
    intro _ sep0 hsep
    simp only [buildDoc, List.flatMap_nil, List.append_nil]
    have h := @htmlSub_append_inert old new sep0 (fun c hc he => hsep.2 (he ▸ hc)) []
    rw [List.append_nil] at h
    rw [h]
    show sep0 ++ ([] : Str) = sep0
    rw [List.append_nil]
  | cons pr rest ih =>
    intro hparts sep0 hsep
    obtain ⟨r, sep⟩ := pr
    have hr := (hparts (r, sep) (List.mem_cons_self _ _)).1
    have hsep2 := (hparts (r, sep) (List.mem_cons_self _ _)).2
    have hIH := ih (fun q hq => hparts q (List.mem_cons_of_mem _ hq)) sep hsep2
    simp only [buildDoc] at hIH ⊢
    simp only [List.flatMap_cons]
    rw [@htmlSub_append_inert old new sep0 (fun c hc he => hsep.2 (he ▸ hc))]
    rcases r with alt | ⟨a1, a2, q1, q2⟩
    · have hinert := @htmlSub_append_inert old new
        (renderNew new (RefShape.md alt))
        (lt_not_in_renderNewMd hr.2 hpair.2.2.2.2.2.2.2.2)
        (sep ++ rest.flatMap (fun q =>
          (match q.1 with
            | RefShape.md alt => renderNew new (RefShape.md alt)
            | RefShape.html a1 a2 q1 q2 => renderOld old (RefShape.html a1 a2 q1 q2)) ++ q.2))
      rw [List.append_assoc, hinert, hIH]
      simp only [List.append_assoc]
    · obtain ⟨ha1ne, hq1, hq2, hgt1, hgt2, -, -, -, -, hea2⟩ := hr
      have hY : ((match RefShape.html a1 a2 q1 q2 with
            | RefShape.md alt => renderNew new (RefShape.md alt)
            | RefShape.html a1 a2 q1 q2 => renderOld old (RefShape.html a1 a2 q1 q2)) ++ sep) ++
          rest.flatMap (fun q =>
            (match q.1 with
              | RefShape.md alt => renderNew new (RefShape.md alt)
              | RefShape.html a1 a2 q1 q2 => renderOld old (RefShape.html a1 a2 q1 q2)) ++ q.2) =
          '<' :: 'i' :: 'm' :: 'g' ::
            (a1 ++ 's' :: 'r' :: 'c' :: '=' :: q1 :: (old ++ q2 :: (a2 ++ '>' ::
              (sep ++ rest.flatMap (fun q =>
                (match q.1 with
                  | RefShape.md alt => renderNew new (RefShape.md alt)
                  | RefShape.html a1 a2 q1 q2 =>
                    renderOld old (RefShape.html a1 a2 q1 q2)) ++ q.2))))) := by
        simp only [renderOld, List.cons_append, List.append_assoc, List.singleton_append,
          List.nil_append]
      rw [hY, htmlSub_cons_some new (htmlSubStep_at_ref old _ ha1ne hq1 hq2 hgt1 hgt2
        hpair.2.2.1 hea2 hpair.2.2.2.2.2.1), hIH]
      simp only [renderNew, List.cons_append, List.append_assoc, List.singleton_append,
        List.nil_append]

/-- C4: for every mapping pair and every document built from separator text
and markdown/HTML image references whose path is exactly the old path
(under the stated side conditions making occurrences unambiguous: separators
start no match, alt texts contain no `]`/`<`, HTML attribute runs are
nonempty, contain no `>`/`<`/`!`, the post-`src` run contains no `=`, and the
paths contain no pattern delimiter characters), the per-pair rewriting of
`update_image_paths` replaces every occurrence — not just the first —
preserving each alt text and all other `img`-tag attributes, and normalizing
the `src` quotes to double quotes. -/
theorem update_pair_rewrites_all_occurrences
    (old new : Str) (sep0 : Str) (parts : List (RefShape × Str))
    (hpair : pairOk old new) (hsep : sepOk sep0)
    (hparts : ∀ pr ∈ parts, shapeOk pr.1 ∧ sepOk pr.2) :
    updatePair old new (buildDoc (renderOld old) sep0 parts) =
      buildDoc (renderNew new) sep0 parts := by
  unfold updatePair
  rw [mdSub_buildDoc old new hpair parts hparts sep0 hsep]
  exact htmlSub_buildDoc old new hpair parts hparts sep0 hsep

/-- Witness for the C4 theorem: the claim's own example `![caption](old.png)`
with mapping `old.png → /images/abcd1234.png`, twice in one document together
with an HTML reference, rewrites to `![caption](/images/abcd1234.png)` at
every occurrence. -/
theorem update_pair_rewrites_all_occurrences_witness :
    updatePair "old.png".data "/images/abcd1234.png".data
      (buildDoc (renderOld "old.png".data) " ".data
        [(RefShape.md "caption".data, " mid ".data),
         (RefShape.md "x".data, " ".data),
         (RefShape.html " width=9 ".data " ".data quoteChar quoteChar, "".data)]) =
      buildDoc (renderNew "/images/abcd1234.png".data) " ".data
        [(RefShape.md "caption".data, " mid ".data),
         (RefShape.md "x".data, " ".data),
         (RefShape.html " width=9 ".data " ".data quoteChar quoteChar, "".data)] :=
  update_pair_rewrites_all_occurrences "old.png".data "/images/abcd1234.png".data " ".data
    [(RefShape.md "caption".data, " mid ".data),
     (RefShape.md "x".data, " ".data),
     (RefShape.html " width=9 ".data " ".data quoteChar quoteChar, "".data)]
    (by decide) (by decide) (by decide)


theorem splitLines_ne_nil : ∀ (c : Str), splitLines c ≠ [] := by
  intro c
  cases c with
  | nil => simp [splitLines]
  | cons x rest =>
    unfold splitLines
    rcases hs : splitLines rest with _ | ⟨l, ls⟩
    · simp
    · by_cases hx : x = '\n' <;> simp [hx]

theorem joinLines_splitLines : ∀ (c : Str), joinLines (splitLines c) = c := by
  intro c
  induction c with
  | nil => rfl
  | cons x rest ih =>
    unfold splitLines
    rcases hs : splitLines rest with _ | ⟨l, ls⟩
    · exact absurd hs (splitLines_ne_nil rest)
    · rw [hs] at ih
      by_cases hx : x = '\n'
      · subst hx
        dsimp only
        rw [if_pos rfl]
        show ('\n' :: joinLines (l :: ls) : Str) = '\n' :: rest
        rw [ih]
      · dsimp only
        rw [if_neg hx]
        show joinLines ((x :: l) :: ls) = x :: rest
        cases ls with
        | nil =>
          show (x :: l : Str) = x :: rest
          rw [show joinLines [l] = l from rfl] at ih
          rw [ih]
        | cons l2 ls2 =>
          show (x :: l : Str) ++ '\n' :: joinLines (l2 :: ls2) = x :: rest
          rw [List.cons_append]
          have h2 : (l : Str) ++ '\n' :: joinLines (l2 :: ls2) = joinLines (l :: l2 :: ls2) := rfl
          rw [h2, ih]

theorem splitLines_no_newline : ∀ (c : Str), ∀ l ∈ splitLines c, '\n' ∉ l := by
  intro c
  induction c with
  | nil =>
    intro l hl
    simp only [splitLines, List.mem_singleton] at hl
    subst hl
    simp
  | cons x rest ih =>
    intro l hl
    unfold splitLines at hl
    rcases hs : splitLines rest with _ | ⟨l1, ls⟩
    · exact absurd hs (splitLines_ne_nil rest)
    · rw [hs] at hl
      by_cases hx : x = '\n'
      · subst hx
        dsimp only at hl
        rw [if_pos rfl] at hl
        rcases List.mem_cons.mp hl with rfl | h2
        · simp
        · exact ih l (hs ▸ h2)
      · dsimp only at hl
        rw [if_neg hx] at hl
        rcases List.mem_cons.mp hl with rfl | h2
        · intro hmem
          rcases List.mem_cons.mp hmem with h3 | h3
          · exact hx h3.symm
          · exact ih l1 (hs ▸ List.mem_cons_self _ _) h3
        · exact ih l (hs ▸ List.mem_cons_of_mem _ h2)


theorem dropWhile_idem {a : Type} (p : a → Bool) (l : List a) :
    (l.dropWhile p).dropWhile p = l.dropWhile p := by
  induction l with
  | nil => rfl
  | cons x rest ih =>
    rw [List.dropWhile_cons]
    by_cases h : p x = true
    · simp only [h, if_true]
      exact ih
    · simp [List.dropWhile_cons, h]

theorem pyStrip_dropWhile (w : Str) : pyStrip (w.dropWhile pyIsSpace) = pyStrip w := by
  unfold pyStrip
  rw [dropWhile_idem]

theorem exists_false_dropWhile {a : Type} (p : a → Bool) :
    ∀ (l : List a), (∃ x ∈ l, p x = false) → ∃ x ∈ l.dropWhile p, p x = false := by
  intro l h
  induction l with
  | nil =>
    rcases h with ⟨x, hx, _⟩
    cases hx
  | cons x rest ih =>
    rw [List.dropWhile_cons]
    by_cases hx : p x = true
    · simp only [hx, if_true]
      apply ih
      rcases h with ⟨y, hy, hpy⟩
      rcases List.mem_cons.mp hy with rfl | hy2
      · rw [hx] at hpy
        cases hpy
      · exact ⟨y, hy2, hpy⟩
    · rw [if_neg hx]
      exact ⟨x, by simp, Bool.eq_false_iff.mpr hx⟩

theorem dropWhile_ne_nil {a : Type} (p : a → Bool) (l : List a)
    (h : ∃ x ∈ l, p x = false) : l.dropWhile p ≠ [] := by
  rcases exists_false_dropWhile p l h with ⟨x, hx, _⟩
  intro hnil
  rw [hnil] at hx
  cases hx

theorem pyStrip_ne_nil {w : Str} (h : ∃ x ∈ w, pyIsSpace x = false) : pyStrip w ≠ [] := by
  unfold pyStrip
  intro hnil
  rw [List.reverse_eq_nil_iff] at hnil
  rcases exists_false_dropWhile pyIsSpace w h with ⟨x, hx, hpx⟩
  exact dropWhile_ne_nil pyIsSpace _ ⟨x, List.mem_reverse.mpr hx, hpx⟩ hnil

theorem pyStrip_all_space {w : Str} (h : ∀ x ∈ w, pyIsSpace x = true) : pyStrip w = [] := by
  unfold pyStrip
  rw [List.dropWhile_eq_nil_iff.mpr (fun x hx => h x hx)]
  rfl

theorem takeWhile_all {a : Type} {p : a → Bool} :
    ∀ {l : List a}, (∀ x ∈ l, p x = true) → l.takeWhile p = l := by
  intro l
  induction l with
  | nil => intro _; rfl
  | cons x rest ih =>
    intro h
    rw [List.takeWhile_cons, h x (by simp), if_pos rfl, ih (fun y hy => h y (by simp [hy]))]

theorem dropWhile_head_false {a : Type} {p : a → Bool} :
    ∀ {l : List a} {x : a} {xs : List a}, l.dropWhile p = x :: xs → p x = false := by
  intro l
  induction l with
  | nil =>
    intro x xs h
    cases h
  | cons b t ih =>
    intro x xs h
    rw [List.dropWhile_cons] at h
    by_cases hb : p b = true
    · rw [if_pos hb] at h
      exact ih h
    · rw [if_neg hb] at h
      injection h with h1 _
      subst h1
      exact Bool.eq_false_iff.mpr hb

theorem headingSearch_cons (atStart : Bool) (c : Char) (rest : Str) :
    headingSearch atStart (c :: rest) =
      if atStart = true ∧ c = '#' then
        match headingTry rest with
        | some cap => some cap
        | none => headingSearch (decide (c = '\n')) rest
      else headingSearch (decide (c = '\n')) rest := by
  cases atStart <;> rfl

theorem headingSearch_false_skip {xs : Str} (h : '\n' ∉ xs) (suffix : Str)
    (hs : suffix = [] ∨ suffix.head? = some '\n') :
    headingSearch false (xs ++ suffix) = headingSearch true (suffix.drop 1) := by
  induction xs with
  | nil =>
    rcases hs with rfl | hs
    · rfl
    · cases suffix with
      | nil => cases hs
      | cons a ss =>
        injection hs with hs
        subst hs
        show headingSearch false ('\n' :: ss) = headingSearch true ss
        rw [headingSearch_cons, if_neg (by simp), decide_eq_true (rfl : ('\n' : Char) = '\n')]
  | cons x t ih =>
    have hx : x ≠ '\n' := fun hc => h (by simp [hc])
    have ht : '\n' ∉ t := fun hc => h (by simp [hc])
    show headingSearch false (x :: (t ++ suffix)) = headingSearch true (suffix.drop 1)
    rw [headingSearch_cons, if_neg (by simp), decide_eq_false hx]
    exact ih ht

theorem headingSearch_fire {l : Str} (hl : claimHeadingLine l = true) (hnl : '\n' ∉ l)
    (suffix : Str) (hs : suffix = [] ∨ suffix.head? = some '\n') :
    headingSearch true (l ++ suffix) = some ((l.drop 1).dropWhile pyIsSpace) := by
  unfold claimHeadingLine at hl
  split at hl
  case _ c r =>
    rw [Bool.and_eq_true, Bool.not_eq_true'] at hl
    obtain ⟨hc, h2⟩ := hl
    have h3 : pyStrip (c :: r) ≠ [] := by
      intro h0
      rw [h0] at h2
      cases h2
    have hex : ∃ x ∈ (c :: r : Str), pyIsSpace x = false := by
      by_contra hcon
      push_neg at hcon
      refine h3 (pyStrip_all_space ?_)
      intro x hx
      cases hpx : pyIsSpace x
      · exact absurd hpx (hcon x hx)
      · rfl
    obtain ⟨d, v, hdv⟩ : ∃ d v, (c :: r : Str).dropWhile pyIsSpace = d :: v := by
      rcases hh : (c :: r : Str).dropWhile pyIsSpace with _ | ⟨d, v⟩
      · exact absurd hh (dropWhile_ne_nil _ _ hex)
      · exact ⟨d, v, rfl⟩
    have hd : pyIsSpace d = false := dropWhile_head_false hdv
    have hdecomp : (c :: r : Str).takeWhile pyIsSpace ++ d :: v = c :: r := by
      rw [← hdv]
      exact List.takeWhile_append_dropWhile pyIsSpace (c :: r)
    have hmem : ∀ x ∈ (c :: r : Str).takeWhile pyIsSpace, pyIsSpace x = true :=
      fun x hx => List.mem_takeWhile_imp hx
    have hsubd : ∀ x ∈ (d :: v : Str), x ∈ (c :: r : Str) := by
      intro x hx
      rw [← hdecomp]
      exact List.mem_append_right _ hx
    have hnl2 : '\n' ∉ (c :: r : Str) := fun hm => hnl (List.mem_cons_of_mem _ hm)
    have hnldv : ∀ x ∈ (d :: v : Str), x ≠ '\n' := fun x hx he => hnl2 (he ▸ hsubd x hx)
    have hdne : d ≠ '\n' := by
      intro he
      rw [he] at hd
      exact absurd hd (by decide)
    have hu : (c :: r : Str).takeWhile pyIsSpace = c :: r.takeWhile pyIsSpace := by
      rw [List.takeWhile_cons, if_pos hc]
    have hcap : ∀ (tail : Str), (tail = [] ∨ tail.head? = some '\n') →
        (d :: (v ++ tail)).takeWhile (fun x => decide (x ≠ '\n')) = d :: v := by
      intro tail htail
      rcases htail with rfl | htail
      · rw [List.append_nil]
        exact takeWhile_all (fun x hx => decide_eq_true (hnldv x hx))
      · rcases tail with _ | ⟨a, ss⟩
        · cases htail
        · injection htail with htail
          subst htail
          rw [show (d :: (v ++ '\n' :: ss) : Str) = (d :: v) ++ '\n' :: ss from rfl]
          exact takeWhile_append_stop (fun x hx => decide_eq_true (hnldv x hx)) (by decide) ss
    have hkey : headingTry ((c :: r : Str) ++ suffix) = some (d :: v) := by
      unfold headingTry
      have hsplit : (c :: r : Str) ++ suffix =
          (c :: r : Str).takeWhile pyIsSpace ++ (d :: (v ++ suffix)) := by
        conv_lhs => rw [← hdecomp]
        rw [List.append_assoc]
        rfl
      rw [hsplit, takeWhile_append_stop hmem hd]
      rw [hu, List.length_cons]
      unfold headingTryK
      have hdrop : ((c :: r.takeWhile pyIsSpace : Str) ++ (d :: (v ++ suffix))).drop
          ((r.takeWhile pyIsSpace).length + 1) = d :: (v ++ suffix) := by
        rw [show (r.takeWhile pyIsSpace).length + 1 =
          (c :: r.takeWhile pyIsSpace : Str).length from (List.length_cons _ _).symm]
        exact List.drop_left _ _
      rw [hdrop, List.head?_cons]
      dsimp only
      rw [if_pos hdne, hcap suffix hs]
    rw [show (('#' :: c :: r : Str) ++ suffix) = '#' :: ((c :: r : Str) ++ suffix) from rfl]
    rw [headingSearch_cons, if_pos ⟨rfl, rfl⟩, hkey]
    rw [show (('#' :: c :: r : Str).drop 1).dropWhile pyIsSpace = d :: v from hdv]
  case _ => cases hl


theorem headingSearch_skip {l : Str} (hl : claimHeadingLine l = false) (hstub : stubLine l = false)
    (hnl : '\n' ∉ l) (suffix : Str) (hs : suffix = [] ∨ suffix.head? = some '\n') :
    headingSearch true (l ++ suffix) = headingSearch true (suffix.drop 1) := by
  cases l with
  | nil =>
    rw [List.nil_append]
    rcases hs with rfl | hhead
    · rfl
    · rcases suffix with _ | ⟨a, ss⟩
      · cases hhead
      · injection hhead with hhead
        subst hhead
        rw [headingSearch_cons, if_neg (by simp), decide_eq_true (rfl : ('\n' : Char) = '\n')]
        rfl
  | cons a t =>
    by_cases ha : a = '#'
    · subst ha
      rcases t with _ | ⟨c, r⟩
      · exact absurd hstub (by decide)
      · have hallf : (c :: r : Str).all pyIsSpace = false := hstub
        have hex : ∃ x ∈ (c :: r : Str), pyIsSpace x = false := by
          by_contra hcon
          push_neg at hcon
          have hall : (c :: r : Str).all pyIsSpace = true := by
            rw [List.all_eq_true]
            intro x hx
            cases hpx : pyIsSpace x
            · exact absurd hpx (hcon x hx)
            · rfl
          rw [hall] at hallf
          cases hallf
        have hne : pyStrip (c :: r) ≠ [] := pyStrip_ne_nil hex
        have hEmpty : (pyStrip (c :: r)).isEmpty = false := by
          cases hpe : pyStrip (c :: r) with
          | nil => exact absurd hpe hne
          | cons _ _ => rfl
        have hl2 : pyIsSpace c = false := by
          have hcl : claimHeadingLine ('#' :: c :: r) =
              (pyIsSpace c && !(pyStrip (c :: r)).isEmpty) := rfl
          rw [hcl, hEmpty] at hl
          simpa using hl
        rw [show (('#' :: c :: r : Str) ++ suffix) = '#' :: ((c :: r : Str) ++ suffix) from rfl]
        rw [headingSearch_cons, if_pos ⟨rfl, rfl⟩]
        have htry : headingTry ((c :: r : Str) ++ suffix) = none := by
          unfold headingTry
          rw [show ((c :: r : Str) ++ suffix) = c :: (r ++ suffix) from rfl]
          rw [List.takeWhile_cons, if_neg (by simp [hl2])]
          rfl
        rw [htry]
        dsimp only
        rw [decide_eq_false (by decide : ¬('#' : Char) = '\n')]
        exact headingSearch_false_skip (fun hm => hnl (by simp [hm])) suffix hs
    · rw [show ((a :: t : Str) ++ suffix) = a :: (t ++ suffix) from rfl]
      rw [headingSearch_cons, if_neg (by simp [ha])]
      have hannl : a ≠ '\n' := fun he => hnl (by simp [he])
      rw [decide_eq_false hannl]
      exact headingSearch_false_skip (fun hm => hnl (by simp [hm])) suffix hs

theorem headingSearch_lines : ∀ (ls : List Str),
    (∀ l ∈ ls, '\n' ∉ l) →
    ((ls.takeWhile (fun l => !claimHeadingLine l)).all (fun l => !stubLine l)) = true →
    headingSearch true (joinLines ls) =
      (ls.find? claimHeadingLine).map (fun l => (l.drop 1).dropWhile pyIsSpace) := by
  intro ls
  induction ls with
  | nil =>
    intro _ _
    rfl
  | cons l ls2 ih =>
    intro hnl hstub
    by_cases hl : claimHeadingLine l = true
    · rw [List.find?_cons_of_pos _ hl]
      rcases ls2 with _ | ⟨l2, ls3⟩
      · rw [show joinLines [l] = l ++ [] from (List.append_nil l).symm]
        rw [headingSearch_fire hl (hnl l (by simp)) [] (Or.inl rfl)]
        rfl
      · rw [show joinLines (l :: l2 :: ls3) = l ++ '\n' :: joinLines (l2 :: ls3) from rfl]
        rw [headingSearch_fire hl (hnl l (by simp)) ('\n' :: joinLines (l2 :: ls3)) (Or.inr rfl)]
        rfl
    · have hlf : claimHeadingLine l = false := Bool.eq_false_iff.mpr hl
      simp only [List.takeWhile_cons, hlf, Bool.not_false, if_true, List.all_cons,
        Bool.and_eq_true, Bool.not_eq_true'] at hstub
      obtain ⟨hstubl, hstub2⟩ := hstub
      rw [List.find?_cons_of_neg _ (by simp [hlf])]
      rcases ls2 with _ | ⟨l2, ls3⟩
      · rw [show joinLines [l] = l ++ [] from (List.append_nil l).symm]
        rw [headingSearch_skip hlf hstubl (hnl l (by simp)) [] (Or.inl rfl)]
        rfl
      · rw [show joinLines (l :: l2 :: ls3) = l ++ '\n' :: joinLines (l2 :: ls3) from rfl]
        rw [headingSearch_skip hlf hstubl (hnl l (by simp)) ('\n' :: joinLines (l2 :: ls3))
          (Or.inr rfl)]
        exact ih (fun x hx => hnl x (by simp [hx])) hstub2

/-- C6: when no stub line (a `#` followed only by whitespace) precedes the first
heading line, `extract_title_from_content` returns exactly the title the claim
describes: the stripped text of the first line starting with `#`, whitespace and
text, with the filename and literal fallbacks when no such line exists. -/
theorem extract_title_first_heading_line (content : Str) (b : Bool) (stem : Str)
    (h : noStubBeforeHeading content = true) :
    extract_title_from_content content b stem =
      (match claimTitle content with
       | some t => t
       | none =>
         if b then pyTitle (stem.map (fun c => if c = '_' ∨ c = '-' then ' ' else c))
         else "Untitled Post".data) := by
  unfold noStubBeforeHeading at h
  unfold extract_title_from_content claimTitle
  conv_lhs => rw [show content = joinLines (splitLines content) from
    (joinLines_splitLines content).symm]
  rw [headingSearch_lines (splitLines content) (splitLines_no_newline content) h]
  rcases hf : (splitLines content).find? claimHeadingLine with _ | l
  · rfl
  · show pyStrip ((l.drop 1).dropWhile pyIsSpace) = pyStrip (l.drop 1)
    exact pyStrip_dropWhile _

/-- C6 counterexample: in the document `"#\nz\n# Good"` the multiline regex of
the source lets `\s+` cross the newline after the stub line `#`, so the code
derives the title `z`, while the first heading line in the sense of the claim
is `# Good`, whose text is `Good`. -/
theorem stub_line_steals_next_line_title :
    extract_title_from_content ('#' :: '\n' :: 'z' :: '\n' :: "# Good".data) false [] = ['z'] ∧
    claimTitle ('#' :: '\n' :: 'z' :: '\n' :: "# Good".data) = some "Good".data ∧
    (['z'] : Str) ≠ "Good".data := by
  refine ⟨?_, ?_, ?_⟩ <;> decide

/-- Witness for the C6 theorem at a concrete two-line document. -/
theorem extract_title_first_heading_line_witness :
    noStubBeforeHeading ('#' :: ' ' :: 'H' :: 'i' :: '\n' :: 'b' :: []) = true ∧
    extract_title_from_content ('#' :: ' ' :: 'H' :: 'i' :: '\n' :: 'b' :: []) false [] =
      (match claimTitle ('#' :: ' ' :: 'H' :: 'i' :: '\n' :: 'b' :: []) with
       | some t => t
       | none =>
         if false then pyTitle (([] : Str).map (fun c => if c = '_' ∨ c = '-' then ' ' else c))
         else "Untitled Post".data) :=
  ⟨by decide, extract_title_first_heading_line _ false [] (by decide)⟩
